import Mathlib

/-!
Verification of the faasrail-loadgen request-issuing core.

This file shallowly embeds the components of the load generator that the
specification talks about:

* the three IAT (inter-arrival-time) generators of `src/source/iat.rs`
  (`Poisson::gen`, `Uniform::gen`, `Equidistant::gen`);
* the payload fixer of `src/fixer.rs` (`fix_fbpml_payload`), together with a
  model of the `serde_json` value type, serializer and parser it relies on;
* the `WorkloadRequest` data type and its serde configuration (`src/wreq.rs`);
* the per-function worker loop of `src/source/worker.rs`
  (`FunctionWorker::run`) and the shared invocation-id counter of
  `WorkerSync` (seeded in `src/source/client.rs`).

Real-valued quantities that the Rust code computes in `f64` (exponential and
uniform samples, running sums) are embedded as rationals `ℚ`; truncating
casts `as u64` on non-negative values become `Int.toNat ∘ Rat.floor`.
Machine-integer overflow is made explicit with `% 2 ^ 64` where it matters
(the shared `AtomicU64` invocation counter).
-/

namespace Faasrail

/-- One minute in microseconds: the constant `MICROSECONDS_PER_MINUTE = 6·10⁷`
from `src/source/iat.rs`. -/
def microsecondsPerMinute : ℚ := 60000000

/-- The `iat as u64` truncating cast of `src/source/iat.rs`: Rust float-to-int
casts truncate toward zero and saturate, so on values below `2 ^ 64` (all
values arising here) the cast is exactly the natural-number floor, which also
clamps negative inputs to `0`. -/
def truncU64 (q : ℚ) : ℕ := (Rat.floor q).toNat

/-- Error type of `rand_distr::Exp::new`: `ExpError::LambdaTooSmall` is
returned when the requested rate is not strictly positive. -/
inductive ExpError where
  | lambdaTooSmall
deriving DecidableEq, Repr

namespace Poisson

/-- The emitting loop of `Poisson::gen` (`src/source/iat.rs` lines 34-40): a
`take_while` that adds each exponential sample to the running sum `iats_sum`
and keeps the sample only while the updated sum stays below one minute; kept
samples are truncated to `u64`. `acc` is the running sum so far. -/
def emit : List ℚ → ℚ → List ℕ
  | [], _ => []
  | x :: xs, acc =>
    if acc + x < microsecondsPerMinute then truncU64 x :: emit xs (acc + x) else []

/-- `Poisson::gen` (`src/source/iat.rs` lines 26-41): the rate
`λ = rpm / 6·10⁷` must be positive, i.e. `rpm ≠ 0`, otherwise
`rand_distr::Exp::new` fails with `LambdaTooSmall`; on success the emitted
IATs are the prefix of the sampled exponential stream whose running sum stays
below one minute.  The exponential samples drawn from the seeded RNG are
abstracted as the list `samples`. -/
def gen (rpm : ℕ) (samples : List ℚ) : Except ExpError (List ℕ) :=
  if rpm = 0 then .error .lambdaTooSmall else .ok (emit samples 0)

end Poisson

namespace Uniform

/-- `Uniform::gen` (`src/source/iat.rs` lines 50-69): draw `rpm` samples
`u_i ~ U(0,1)` (abstracted as the stream `u`), accumulate their sum
`iat_sum`, then map each sample to `(u_i · 6·10⁷ / iat_sum) as u64`.
The error type is `Infallible`, embedded as `Empty`: the call always
returns `Ok`. -/
def gen (rpm : ℕ) (u : ℕ → ℚ) : Except Empty (List ℕ) :=
  let iats := (List.range rpm).map u
  let iatSum := iats.sum
  .ok (iats.map fun iat => truncU64 (iat * microsecondsPerMinute / iatSum))

end Uniform

namespace Equidistant

/-- `Equidistant::gen` (`src/source/iat.rs` lines 78-86): `rpm` copies of
`(MICROSECONDS_PER_MINUTE / rpm as f64) as u64`; the RNG argument is ignored
and the error type is `Infallible` (embedded as `Empty`).  For every
`rpm ≥ 1` the `f64` quotient `6·10⁷ / rpm` is within one unit in the last
place of the exact quotient and at distance at least `1 / rpm` from any other
integer, so its truncation equals the exact natural-number floor `6·10⁷ / rpm`
used here. -/
def gen (rpm : ℕ) : Except Empty (List ℕ) :=
  .ok (List.replicate rpm (60000000 / rpm))

end Equidistant

/-! ### The per-function Worker loop (`src/source/worker.rs`, `FunctionWorker::run`)

The cooperative scheduling of the `tokio::select!` inside the minute loop is
abstracted by a per-minute schedule: a list of events recording, in order,
which select arm fired at each iteration (`quit` reception, minute-elapsed
timer, or an IAT sleep leading to one `backend.issue` call whose outcome is
`ok` or `err`).  The real inner loop always terminates through the
`minute_end` timer or the quit channel; an exhausted schedule is read as the
minute elapsing.  The shared `AtomicU64` invocation counter of `WorkerSync`
is threaded through explicitly; `fetch_add(1, AcqRel)` hands out the current
value modulo `2 ^ 64` and increments. -/

/-- `MinuteRange` (`src/source/minuterange.rs`): an inclusive 1-based interval
of minutes; `start` is `self.0` (accessor `start()`), `last` is `self.1`
(accessor `end()`).  The `u16` fields are embedded as `ℕ`. -/
structure MinuteRange where
  start : ℕ
  last : ℕ
deriving DecidableEq, Repr

/-- Result of one `backend.issue(..)` call, as observed by the Worker. -/
inductive IssueOutcome where
  | ok
  | err
deriving DecidableEq, Repr

/-- Which arm of the biased `tokio::select!` fired at one iteration of the
Worker's inner loop. -/
inductive InnerEv where
  | quit
  | minuteEnd
  | issue (outcome : IssueOutcome)
deriving DecidableEq, Repr

/-- One issued request: the minute it was issued for, the raw counter value
drawn by `fetch_add` (the invocation id before formatting), and the outcome
of `backend.issue`. -/
structure IssueRec where
  minute : ℕ
  id : ℕ
  outcome : IssueOutcome
deriving DecidableEq, Repr

/-- The Worker's inner loop (`worker.rs` lines 152-218): at each iteration,
`quit` breaks out of the outer minute loop (flag `true`), the minute-elapsed
timer breaks the inner loop, and an IAT sleep issues one request — drawing
the invocation id by `fetch_add` on the shared counter, incrementing
`num_requests` only when `issue` returns `Ok`, and merely logging the error
(continuing the loop) when it returns `Err`.  Arguments: remaining schedule,
counter value, `num_requests` so far.  Returns the issued-request trace, the
counter, `num_requests`, and whether `quit` fired. -/
def runInner (minute : ℕ) : List InnerEv → ℕ → ℕ → List IssueRec × ℕ × ℕ × Bool
  | [], ctr, n => ([], ctr, n, false)
  | .quit :: _, ctr, n => ([], ctr, n, true)
  | .minuteEnd :: _, ctr, n => ([], ctr, n, false)
  | .issue oc :: rest, ctr, n =>
    match runInner minute rest (ctr + 1) (if oc = .ok then n + 1 else n) with
    | (is, ctr1, n1, q) => (⟨minute, ctr % 2 ^ 64, oc⟩ :: is, ctr1, n1, q)

/-- Outcome of a whole `FunctionWorker::run`: the minutes at which the Worker
arrived at the barrier, the issued-request trace, the final counter value,
and the Worker's return value — `Ok(num_requests)`, or the IAT-generation
error (`Error::IatGen`, modelled as `Unit`). -/
structure RunResult where
  barriers : List ℕ
  issues : List IssueRec
  counter : ℕ
  result : Except Unit ℕ
deriving Repr

/-- The Worker's minute loop (`worker.rs` lines 130-221):
`for (minute, rpm) in (1..).zip(&self.rpm)` — skip (`continue`, without
arriving at the barrier) while `minute < range.start()`, break out of the
loop at the first `minute > range.end()`, otherwise generate IATs (an
`IatGenerator` failure, abstracted by `iatOk minute = false`, aborts the run
with `Error::IatGen`), arrive at the barrier, and run the inner loop; after
the loop, return `Ok(num_requests)`. -/
def runMinutes (range : MinuteRange) (sched : ℕ → List InnerEv)
    (iatOk : ℕ → Bool) : List (ℕ × ℕ) → ℕ → ℕ → RunResult
  | [], ctr, n => ⟨[], [], ctr, .ok n⟩
  | (m, _) :: rest, ctr, n =>
    if m < range.start then runMinutes range sched iatOk rest ctr n
    else if range.last < m then ⟨[], [], ctr, .ok n⟩
    else if iatOk m then
      match runInner m (sched m) ctr n with
      | (is, ctr1, n1, true) => ⟨[m], is, ctr1, .ok n1⟩
      | (is, ctr1, n1, false) =>
        let res := runMinutes range sched iatOk rest ctr1 n1
        ⟨m :: res.barriers, is ++ res.issues, res.counter, res.result⟩
    else ⟨[], [], ctr, .error ()⟩

/-- The `(1..).zip(&self.rpm)` pairing of `worker.rs` line 130: minute `i + 1`
with `rpm[i]`; minutes are 1-based. -/
def minutePairs (rpm : List ℕ) : List (ℕ × ℕ) :=
  rpm.enum.map fun p => (p.1 + 1, p.2)

/-- `FunctionWorker::run`, from the start gate onwards: run the minute loop
over the whole RPM schedule with the given shared-counter start value and
`num_requests = 0`. -/
def FunctionWorker.run (range : MinuteRange) (rpm : List ℕ)
    (sched : ℕ → List InnerEv) (iatOk : ℕ → Bool) (ctr0 : ℕ) : RunResult :=
  runMinutes range sched iatOk (minutePairs rpm) ctr0 0

/-- `num_requests` increments of the Worker: the number of issues in a trace
whose `backend.issue` call returned `Ok`. -/
def okCount (l : List IssueRec) : ℕ :=
  (l.filter fun rcd => decide (rcd.outcome = IssueOutcome.ok)).length

/-! ### Invocation ids: the shared counter and the `{:024}` format
(`worker.rs` lines 189-193, counter seeded at `invoc_id_start` in
`src/source/client.rs`) -/

/-- The ids handed out by the shared `AtomicU64` `WorkerSync.invoc_id` under
an arbitrary interleaving of the Workers' `fetch_add(1, AcqRel)` calls: each
element of `ws` is one issued request (tagged by the index of the Worker that
issued it — the tag is irrelevant to the id handed out, which is why the ids
are interleaving-independent); `fetch_add` returns the current value modulo
`2 ^ 64` and increments. -/
def issueIds (start : ℕ) : List ℕ → List ℕ
  | [] => []
  | _ :: ws => start % 2 ^ 64 :: issueIds (start + 1) ws

/-- Decimal digit character, `'0' + n`. -/
def decDigit (n : ℕ) : Char := Char.ofNat (48 + n)

/-- Most-significant-first decimal digits of `n` (empty for `0`). -/
def decDigitsAux : ℕ → List Char
  | 0 => []
  | n + 1 => decDigitsAux ((n + 1) / 10) ++ [decDigit ((n + 1) % 10)]
decreasing_by exact Nat.div_lt_self (Nat.succ_pos n) (by norm_num)

/-- The decimal representation of `n`, as produced by Rust's `Display` for
unsigned integers. -/
def decRepr (n : ℕ) : List Char :=
  if n = 0 then [decDigit 0] else decDigitsAux n

/-- The `format_compact!("{:024}", v)` of `worker.rs` line 190: the decimal
representation of `v`, left-padded with `'0'` up to a minimum width of 24. -/
def format024 (n : ℕ) : String :=
  ⟨List.replicate (24 - (decRepr n).length) (decDigit 0) ++ decRepr n⟩

/-! ### A model of `serde_json` values, serializer and parser

The payload fixer (`src/fixer.rs`) and the `WorkloadRequest` serde derives
(`src/wreq.rs`) operate through `serde_json`.  `Json` embeds
`serde_json::Value` with JSON objects as association lists in first-occurrence
order (the stable, order-preserving map the specification prescribes:
duplicate keys overwrite the value in place, later wins).  JSON numbers are
embedded as integers: `f64` payload values are outside the scope of this
shallow embedding, and none of the verified properties depend on them.
`serJson` is the compact `serde_json::to_string` serializer (strings escaped
exactly as `serde_json` escapes them); `parseJson` is a fuel-based
recursive-descent model of `serde_json::from_str`, accepting the grammar
restricted to integer numerals and non-surrogate escapes. -/

inductive Json where
  | null
  | bool (b : Bool)
  | num (n : Int)
  | str (s : String)
  | arr (elems : List Json)
  | obj (mems : List (String × Json))
deriving Repr

/-- Lower-case hexadecimal digit, as emitted by `serde_json` in `\u00XX`
escapes. -/
def hexDigit (n : ℕ) : Char :=
  if n < 10 then Char.ofNat (48 + n) else Char.ofNat (87 + n)

/-- `serde_json`'s escaping of one character inside a string literal: `"` and
`\` are escaped, the five short control escapes are used for `\b`, `\t`,
`\n`, `\f`, `\r`, any other control character below `0x20` becomes `\u00XX`,
and everything else is emitted verbatim. -/
def escapeChar (c : Char) : List Char :=
  if c = '"' then ['\\', '"']
  else if c = '\\' then ['\\', '\\']
  else if c = Char.ofNat 8 then ['\\', 'b']
  else if c = Char.ofNat 9 then ['\\', 't']
  else if c = Char.ofNat 10 then ['\\', 'n']
  else if c = Char.ofNat 12 then ['\\', 'f']
  else if c = Char.ofNat 13 then ['\\', 'r']
  else if c.toNat < 32 then
    ['\\', 'u', '0', '0', hexDigit (c.toNat / 16), hexDigit (c.toNat % 16)]
  else [c]

def escapeList : List Char → List Char
  | [] => []
  | c :: cs => escapeChar c ++ escapeList cs

/-- A serialized JSON string literal: quote, escaped contents, quote. -/
def serStrLit (s : String) : List Char := '"' :: (escapeList s.data ++ ['"'])

/-- A serialized JSON integer numeral. -/
def serInt (n : Int) : List Char :=
  if n < 0 then '-' :: decRepr n.natAbs else decRepr n.toNat

mutual

/-- Compact `serde_json::to_string` of a value. -/
def serVal : Json → List Char
  | .null => 'n' :: 'u' :: 'l' :: 'l' :: []
  | .bool true => 't' :: 'r' :: 'u' :: 'e' :: []
  | .bool false => 'f' :: ('a' :: 'l' :: 's' :: 'e' :: [])
  | .num n => serInt n
  | .str s => serStrLit s
  | .arr es => '[' :: (serElems es ++ [']'])
  | .obj ms => Char.ofNat 123 :: (serMembers ms ++ [Char.ofNat 125])

/-- Comma-separated array elements. -/
def serElems : List Json → List Char
  | [] => []
  | [e] => serVal e
  | e :: e2 :: es => serVal e ++ ',' :: serElems (e2 :: es)

/-- Comma-separated `"key":value` object members. -/
def serMembers : List (String × Json) → List Char
  | [] => []
  | [(k, v)] => serStrLit k ++ ':' :: serVal v
  | (k, v) :: m2 :: ms => serStrLit k ++ ':' :: serVal v ++ ',' :: serMembers (m2 :: ms)

end

/-- String form of the serializer. -/
def serJson (j : Json) : String := ⟨serVal j⟩

mutual

/-- Well-formedness: every object in the value has pairwise-distinct keys
(the invariant `serde_json` maps maintain, and which the parser below
establishes). -/
def jwf : Json → Prop
  | .null => True
  | .bool _ => True
  | .num _ => True
  | .str _ => True
  | .arr es => jwfL es
  | .obj ms => (ms.map Prod.fst).Nodup ∧ jwfM ms

def jwfL : List Json → Prop
  | [] => True
  | e :: es => jwf e ∧ jwfL es

def jwfM : List (String × Json) → Prop
  | [] => True
  | (_, v) :: ms => jwf v ∧ jwfM ms

end

mutual

/-- Fuel measure for the parser: enough fuel to parse the value back. -/
def fsize : Json → ℕ
  | .arr es => 1 + fsizeL es
  | .obj ms => 1 + fsizeM ms
  | .null => (1 : ℕ)
  | .bool _ => 1
  | .num _ => (1 : ℕ)
  | .str _ => 1

def fsizeL : List Json → ℕ
  | [] => 0
  | e :: es => 1 + fsize e + fsizeL es

def fsizeM : List (String × Json) → ℕ
  | [] => 0
  | (_, v) :: ms => 1 + fsize v + fsizeM ms

end

/-- JSON whitespace. -/
def isWs (c : Char) : Bool :=
  c = ' ' ∨ c = Char.ofNat 9 ∨ c = Char.ofNat 10 ∨ c = Char.ofNat 13

def skipWs : List Char → List Char
  | [] => []
  | c :: cs => if isWs c then skipWs cs else c :: cs

/-- Value of a hexadecimal digit (either case). -/
def hexVal (c : Char) : Option ℕ :=
  if 48 ≤ c.toNat ∧ c.toNat ≤ 57 then some (c.toNat - 48)
  else if 97 ≤ c.toNat ∧ c.toNat ≤ 102 then some (c.toNat - 87)
  else if 65 ≤ c.toNat ∧ c.toNat ≤ 70 then some (c.toNat - 55)
  else none

/-- Parse the contents of a string literal after the opening quote, up to and
including the closing quote; raw control characters are rejected, escape
sequences are decoded (surrogate escapes rejected). -/
def parseStrChars : List Char → Option (List Char × List Char)
  | [] => none
  | c :: cs =>
    if c = '"' then some ([], cs)
    else if c = '\\' then
      match cs with
      | [] => none
      | e :: cs2 =>
        if e = '"' then (parseStrChars cs2).map fun p => ('"' :: p.1, p.2)
        else if e = '\\' then (parseStrChars cs2).map fun p => ('\\' :: p.1, p.2)
        else if e = '/' then (parseStrChars cs2).map fun p => ('/' :: p.1, p.2)
        else if e = 'b' then (parseStrChars cs2).map fun p => (Char.ofNat 8 :: p.1, p.2)
        else if e = 't' then (parseStrChars cs2).map fun p => (Char.ofNat 9 :: p.1, p.2)
        else if e = 'n' then (parseStrChars cs2).map fun p => (Char.ofNat 10 :: p.1, p.2)
        else if e = 'f' then (parseStrChars cs2).map fun p => (Char.ofNat 12 :: p.1, p.2)
        else if e = 'r' then (parseStrChars cs2).map fun p => (Char.ofNat 13 :: p.1, p.2)
        else if e = 'u' then
          match cs2 with
          | h1 :: h2 :: h3 :: h4 :: cs3 =>
            match hexVal h1, hexVal h2, hexVal h3, hexVal h4 with
            | some a, some b, some c3, some d =>
              let n := ((a * 16 + b) * 16 + c3) * 16 + d
              if 55296 ≤ n ∧ n < 57344 then none
              else (parseStrChars cs3).map fun p => (Char.ofNat n :: p.1, p.2)
            | _, _, _, _ => none
          | _ => none
        else none
    else if c.toNat < 32 then none
    else (parseStrChars cs).map fun p => (c :: p.1, p.2)

/-- Numeric value of a run of decimal digit characters. -/
def digitsVal (ds : List Char) : ℕ :=
  ds.foldl (fun a c => 10 * a + (c.toNat - 48)) 0

/-- Parse an unsigned integer numeral: a non-empty digit run with no redundant
leading zero. -/
def parsePosNum (cs : List Char) : Option (ℕ × List Char) :=
  let ds := cs.takeWhile fun c => c.isDigit
  let rest := cs.dropWhile fun c => c.isDigit
  if ds.isEmpty then none
  else if 1 < ds.length ∧ ds.head? = some '0' then none
  else some (digitsVal ds, rest)

/-- Parse an integer numeral with optional minus sign. -/
def parseNumber (cs : List Char) : Option (Json × List Char) :=
  match cs with
  | [] => none
  | c :: cs2 =>
    if c = '-' then (parsePosNum cs2).map fun p => (Json.num (-(p.1 : Int)), p.2)
    else (parsePosNum (c :: cs2)).map fun p => (Json.num ((p.1 : Int)), p.2)

/-- `serde_json` map insertion in the order-preserving model: overwrite the
value at the first occurrence of the key, otherwise append. -/
def insertKV : List (String × Json) → String → Json → List (String × Json)
  | [], k, v => [(k, v)]
  | (k0, v0) :: ms, k, v =>
    if k0 = k then (k0, v) :: ms else (k0, v0) :: insertKV ms k v

mutual

/-- Fuel-based recursive-descent parser for one JSON value (leading
whitespace allowed), returning the value and the unconsumed suffix. -/
def parseVal : ℕ → List Char → Option (Json × List Char)
  | 0, _ => none
  | fuel + 1, cs =>
    match skipWs cs with
    | [] => none
    | c :: cs1 =>
      if c = 'n' then
        match cs1 with
        | 'u' :: 'l' :: 'l' :: rest => some (.null, rest)
        | _ => none
      else if c = 't' then
        match cs1 with
        | 'r' :: 'u' :: 'e' :: rest => some (.bool true, rest)
        | _ => none
      else if c = 'f' then
        match cs1 with
        | 'a' :: 'l' :: 's' :: 'e' :: rest => some (.bool false, rest)
        | _ => none
      else if c = '"' then (parseStrChars cs1).map fun p => (.str ⟨p.1⟩, p.2)
      else if c = '[' then
        match skipWs cs1 with
        | [] => none
        | d :: rest =>
          if d = ']' then some (.arr [], rest)
          else (parseElems fuel (d :: rest)).map fun p => (.arr p.1, p.2)
      else if c = Char.ofNat 123 then
        match skipWs cs1 with
        | [] => none
        | d :: rest =>
          if d = Char.ofNat 125 then some (.obj [], rest)
          else (parseMembers fuel [] (d :: rest)).map fun p => (.obj p.1, p.2)
      else if c = '-' ∨ c.isDigit then parseNumber (c :: cs1)
      else none

/-- Parse the non-empty element list of an array, up to and including the
closing bracket. -/
def parseElems : ℕ → List Char → Option (List Json × List Char)
  | 0, _ => none
  | fuel + 1, cs =>
    match parseVal fuel cs with
    | none => none
    | some (j, rest) =>
      match skipWs rest with
      | ',' :: rest2 => (parseElems fuel rest2).map fun p => (j :: p.1, p.2)
      | ']' :: rest2 => some ([j], rest2)
      | _ => none

/-- Parse the non-empty member list of an object, up to and including the
closing brace, accumulating members with `insertKV` (duplicate keys
overwrite in place, later wins). -/
def parseMembers : ℕ → List (String × Json) → List Char →
    Option (List (String × Json) × List Char)
  | 0, _, _ => none
  | fuel + 1, acc, cs =>
    match skipWs cs with
    | [] => none
    | c :: cs1 =>
      if c = '"' then
        match parseStrChars cs1 with
        | none => none
        | some (k, rest) =>
          match skipWs rest with
          | ':' :: rest2 =>
            match parseVal fuel rest2 with
            | none => none
            | some (v, rest3) =>
              match skipWs rest3 with
              | ',' :: rest4 => parseMembers fuel (insertKV acc ⟨k⟩ v) rest4
              | d :: rest4 =>
                if d = Char.ofNat 125 then some (insertKV acc ⟨k⟩ v, rest4)
                else none
              | [] => none
          | _ => none
      else none

end

/-- `serde_json::from_str` for a whole document: parse one value with fuel
`|s| + 1` (each fuel unit consumes at least one input character) and require
only trailing whitespace after it. -/
def parseJson (s : String) : Option Json :=
  match parseVal (s.length + 1) s.data with
  | some (j, rest) => if (skipWs rest).isEmpty then some j else none
  | none => none

/-- The list does not begin with a decimal digit (boundary condition for
maximal-munch numeral parsing). -/
def noDigitHead (cs : List Char) : Prop :=
  ∀ r, cs.head? = some r → r.isDigit = false

/-! ### `WorkloadRequest` (`src/wreq.rs`) and the payload fixer (`src/fixer.rs`) -/

/-- Model of an `f64` field: non-finite values (`NaN`, `±∞`) as tags, finite
values restricted to the integers of the embedding (float formatting is
outside its scope; no verified property depends on fractional values). -/
inductive FloatVal where
  | finite (n : Int)
  | nan
  | posInf
  | negInf
deriving DecidableEq, Repr

/-- `not_finite` from `src/wreq.rs`: `!float.is_finite()`, the
`skip_serializing_if` predicate of `mean`/`stdev`. -/
def not_finite : FloatVal → Bool
  | .finite _ => false
  | _ => true

/-- `WorkloadRequest` (`src/wreq.rs` lines 14-33): serde struct with fields in
declaration order `mean, stdev, bench, payload`; `mean`/`stdev` carry
`#[serde(skip_serializing_if = "not_finite")] #[serde(default = "nan")]`. -/
structure WorkloadRequest where
  mean : FloatVal
  stdev : FloatVal
  bench : String
  payload : String
deriving DecidableEq, Repr

/-- The `PartialEq` impl of `WorkloadRequest` (`src/wreq.rs` lines 35-41):
equality compares only `bench` and `payload`. -/
def WorkloadRequest.eq (a b : WorkloadRequest) : Bool :=
  a.bench == b.bench && a.payload == b.payload

/-- `serde_json::from_str::<serde_json::Map<String, Value>>`: the document
must be a single JSON object. -/
def parsePayloadMap (s : String) : Option (List (String × Json)) :=
  match parseJson s with
  | some (.obj m) => some m
  | _ => none

/-- `serde_json::Map::get` on the association-list model. -/
def lookupKV (k : String) : List (String × Json) → Option Json
  | [] => none
  | (k0, v) :: ms => if k0 = k then some v else lookupKV k ms

/-- `serde_json::Map::get_mut` followed by an in-place update: apply `f` to
the value at the first occurrence of `key`, if present. -/
def modifyKV : List (String × Json) → String → (Json → Json) → List (String × Json)
  | [], _, _ => []
  | (k0, v0) :: ms, key, f =>
    if k0 = key then (k0, f v0) :: ms else (k0, v0) :: modifyKV ms key f

/-- The per-key update of `fix_fbpml_payload` (`src/fixer.rs` lines 44-49 and
51-56): if the present value is a string equal to the target, do nothing;
otherwise (string with another value, or any non-string value, i.e. `as_str()
= None`) overwrite it with `Value::String(target)`. -/
def fixValue (target : String) (v : Json) : Json :=
  match v with
  | .str s => if s = target then v else .str target
  | _ => .str target

/-- `MINIO_ADDRESS_KEY` from `src/fixer.rs`. -/
def MINIO_ADDRESS_KEY : String := "minio_address"

/-- `BUCKET_NAME_KEY` from `src/fixer.rs`. -/
def BUCKET_NAME_KEY : String := "bucket_name"

/-- The fixer's error enum (`src/fixer.rs` lines 8-15), without the wrapped
`serde_json::Error` payloads. -/
inductive FixerError where
  | jsonSerialization
  | jsonDeserialization
deriving DecidableEq, Repr

/-- `fix_fbpml_payload` (`src/fixer.rs` lines 37-61).  The Rust function
mutates `req` through `&mut` and returns `Result<(), Error>`; the embedding
returns the final state of `req` together with the error, mirroring the
control flow: the payload string is deserialized (failure returns the
deserialization error with `req` untouched), the two managed keys are
updated in place when present, and only then is `req.payload` assigned the
re-serialized object.  `serde_json::to_string` on a `Map<String, Value>`
cannot fail, so the `Error::JsonSerialization` branch is dead code and the
serialization step is total here. -/
def fix_fbpml_payload (req : WorkloadRequest) (minio_address bucket_name : String) :
    WorkloadRequest × Option FixerError :=
  match parsePayloadMap req.payload with
  | none => (req, some .jsonDeserialization)
  | some payload =>
    let payload1 := modifyKV payload MINIO_ADDRESS_KEY (fixValue minio_address)
    let payload2 := modifyKV payload1 BUCKET_NAME_KEY (fixValue bucket_name)
    ({ req with payload := serJson (.obj payload2) }, none)

/-- Serialization of a `WorkloadRequest` `mean`/`stdev` field: present with
its numeric value exactly when finite (`skip_serializing_if = "not_finite"`). -/
def floatField (name : String) (v : FloatVal) : List (String × Json) :=
  match v with
  | .finite n => [(name, Json.num n)]
  | _ => []

/-- `serde_json::to_string::<WorkloadRequest>`: an object with the fields in
declaration order, non-finite `mean`/`stdev` omitted. -/
def serializeWreq (r : WorkloadRequest) : String :=
  serJson (.obj (floatField "mean" r.mean ++ floatField "stdev" r.stdev ++
    [("bench", .str r.bench), ("payload", .str r.payload)]))

/-- Deserialization of an optional `mean`/`stdev` field: absent defaults to
`NaN` (`#[serde(default = "nan")]`), a numeric value is finite, any other
JSON value is a type error. -/
def floatFromField : Option Json → Option FloatVal
  | none => some .nan
  | some (.num n) => some (.finite n)
  | some _ => none

/-- `serde_json::from_str::<WorkloadRequest>`: a JSON object with required
string fields `bench` and `payload` and optional numeric `mean`/`stdev`;
unknown fields are ignored (serde's default). -/
def deserializeWreq (s : String) : Option WorkloadRequest :=
  match parsePayloadMap s with
  | none => none
  | some m =>
    match lookupKV "bench" m, lookupKV "payload" m with
    | some (.str bench), some (.str payload) =>
      match floatFromField (lookupKV "mean" m),
          floatFromField (lookupKV "stdev" m) with
      | some mean, some stdev => some ⟨mean, stdev, bench, payload⟩
      | _, _ => none
    | _, _ => none

/-! ### Theorems -/

theorem truncU64_eq_natFloor (q : ℚ) : truncU64 q = ⌊q⌋₊ := by
  rw [truncU64, show Rat.floor q = ⌊q⌋ from (Rat.floor_def' q).trans Rat.floor_def.symm,
    Int.floor_toNat]

/-! ### Facts about the Poisson emitting loop -/

theorem truncU64_le {q : ℚ} (hq : 0 ≤ q) : (truncU64 q : ℚ) ≤ q := by
  rw [truncU64_eq_natFloor]; exact Nat.floor_le hq

theorem Poisson.emit_sum_lt (samples : List ℚ) :
    ∀ acc : ℚ, (∀ x ∈ samples, 0 ≤ x) → 0 ≤ acc →
      ((Poisson.emit samples acc).sum : ℚ) + acc < microsecondsPerMinute ∨
        Poisson.emit samples acc = [] := by
  induction samples with
  | nil => intro acc _ _; right; rfl
  | cons x xs ih =>
    intro acc hnn hacc
    have hx : 0 ≤ x := hnn x (List.mem_cons_self x xs)
    by_cases hlt : acc + x < microsecondsPerMinute
    · left
      rw [Poisson.emit, if_pos hlt]
      have hxs : ∀ y ∈ xs, 0 ≤ y := fun y hy => hnn y (List.mem_cons_of_mem x hy)
      have hacc' : 0 ≤ acc + x := add_nonneg hacc hx
      have htr : (truncU64 x : ℚ) ≤ x := truncU64_le hx
      rcases ih (acc + x) hxs hacc' with h | h
      · push_cast [List.sum_cons]
        push_cast at h
        linarith
      · rw [h]
        push_cast [List.sum_cons, List.sum_nil]
        linarith
    · right
      rw [Poisson.emit, if_neg hlt]

theorem truncU64_lt_add_one (q : ℚ) : q < (truncU64 q : ℚ) + 1 := by
  rw [truncU64_eq_natFloor]; exact Nat.lt_floor_add_one q

theorem sum_map_mul_const (qs : List ℚ) (c : ℚ) :
    (qs.map fun x => x * c).sum = qs.sum * c := by
  induction qs with
  | nil => simp
  | cons x xs ih => simp [ih, add_mul]

theorem sum_map_truncU64_le (qs : List ℚ) (h : ∀ q ∈ qs, 0 ≤ q) :
    (((qs.map truncU64).sum : ℕ) : ℚ) ≤ qs.sum := by
  induction qs with
  | nil => simp
  | cons x xs ih =>
    have hx := h x (List.mem_cons_self x xs)
    have hxs := ih fun q hq => h q (List.mem_cons_of_mem x hq)
    have htr := truncU64_le hx
    simp only [List.map_cons, List.sum_cons, Nat.cast_add]
    linarith

theorem sum_le_sum_map_truncU64_add (qs : List ℚ) :
    qs.sum ≤ (((qs.map truncU64).sum : ℕ) : ℚ) + qs.length := by
  induction qs with
  | nil => simp
  | cons x xs ih =>
    have htr := truncU64_lt_add_one x
    simp only [List.map_cons, List.sum_cons, Nat.cast_add, List.length_cons]
    push_cast
    push_cast at ih
    linarith

theorem sum_lt_sum_map_truncU64_add (qs : List ℚ) (hne : qs ≠ []) :
    qs.sum < (((qs.map truncU64).sum : ℕ) : ℚ) + qs.length := by
  match qs with
  | [] => exact absurd rfl hne
  | x :: xs =>
    have htr := truncU64_lt_add_one x
    have hxs := sum_le_sum_map_truncU64_add xs
    simp only [List.map_cons, List.sum_cons, Nat.cast_add, List.length_cons]
    push_cast
    push_cast at hxs
    linarith

/-! ### Claim theorems for the IAT generators -/

/-- C3: Poisson IAT generator.  For every `rpm > 0` and every seed (i.e. every
stream of non-negative exponential samples), `Poisson::gen` returns `Ok` with
a finite sequence whose emitted IATs (each sample truncated to `u64`) sum to
strictly less than `6·10⁷` microseconds: the generator keeps a running sum of
the sampled IATs and stops before emitting the sample that would make the sum
reach `6·10⁷`.  For `rpm = 0` it returns the invalid-rate error
`ExpError::LambdaTooSmall`. -/
theorem C3_poisson_iat_bound (rpm : ℕ) (samples : List ℚ)
    (hs : ∀ x ∈ samples, 0 ≤ x) :
    (rpm ≠ 0 →
      Poisson.gen rpm samples = .ok (Poisson.emit samples 0) ∧
      (Poisson.emit samples 0).sum < 60000000) ∧
    (rpm = 0 → Poisson.gen rpm samples = .error .lambdaTooSmall) := by
  constructor
  · intro h
    refine ⟨by rw [Poisson.gen, if_neg h], ?_⟩
    rcases Poisson.emit_sum_lt samples 0 hs le_rfl with hlt | hnil
    · have hq : ((Poisson.emit samples 0).sum : ℚ) < 60000000 := by
        rw [microsecondsPerMinute] at hlt; linarith
      exact_mod_cast hq
    · rw [hnil]; simp
  · intro h; rw [Poisson.gen, if_pos h]

theorem C3_poisson_iat_bound_witness :
    (Poisson.gen 1 [(30000000 : ℚ), 40000000] =
      .ok (Poisson.emit [(30000000 : ℚ), 40000000] 0) ∧
      (Poisson.emit [(30000000 : ℚ), 40000000] 0).sum < 60000000) ∧
    Poisson.gen 0 [(30000000 : ℚ)] = .error .lambdaTooSmall := by
  have h := C3_poisson_iat_bound 1 [(30000000 : ℚ), 40000000]
    (by intro x hx; fin_cases hx <;> norm_num)
  have h0 := C3_poisson_iat_bound 0 [(30000000 : ℚ)]
    (by intro x hx; fin_cases hx; norm_num)
  exact ⟨h.1 one_ne_zero, h0.2 rfl⟩

/-- C6: Uniform IAT generator.  For every `rpm > 0` and every seed (stream of
positive `U(0,1)` samples `u`), `Uniform::gen` returns `Ok` with exactly `rpm`
IATs, the `i`-th being `⌊u_i · 6·10⁷ / T⌋` where `T` is the sum of the `rpm`
samples in sampling order; the total is at most `6·10⁷` and is within
truncation error (`rpm` microseconds) of it; the error type is `Infallible`,
so the generator never returns an error. -/
theorem C6_uniform_iat_count_and_sum (rpm : ℕ) (u : ℕ → ℚ)
    (hrpm : 0 < rpm) (hu : ∀ i, 0 < u i) :
    ∃ l : List ℕ,
      Uniform.gen rpm u = .ok l ∧
      l = ((List.range rpm).map u).map
        (fun x => truncU64 (x * microsecondsPerMinute / ((List.range rpm).map u).sum)) ∧
      l.length = rpm ∧
      l.sum ≤ 60000000 ∧
      60000000 < l.sum + rpm := by
  set iats : List ℚ := (List.range rpm).map u with hiats
  set T : ℚ := iats.sum with hT
  have hiatsne : iats ≠ [] := by
    rw [hiats]
    simp [List.range_eq_nil]
    omega
  have hpos : ∀ x ∈ iats, 0 < x := by
    intro x hx
    rw [hiats] at hx
    rcases List.mem_map.mp hx with ⟨i, _, rfl⟩
    exact hu i
  have hTpos : 0 < T := List.sum_pos iats hpos hiatsne
  set qs : List ℚ := iats.map (fun x => x * microsecondsPerMinute / T) with hqs
  have hqslen : qs.length = rpm := by
    rw [hqs, List.length_map, hiats, List.length_map, List.length_range]
  have hqsnn : ∀ q ∈ qs, 0 ≤ q := by
    intro q hq
    rw [hqs] at hq
    rcases List.mem_map.mp hq with ⟨x, hx, rfl⟩
    have hx0 := hpos x hx
    have hL : (0 : ℚ) < microsecondsPerMinute := by rw [microsecondsPerMinute]; norm_num
    positivity
  have hqssum : qs.sum = microsecondsPerMinute := by
    have : qs = iats.map fun x => x * (microsecondsPerMinute / T) := by
      rw [hqs]
      apply List.map_congr_left
      intro x _
      rw [mul_div_assoc]
    rw [this, sum_map_mul_const, ← hT]
    field_simp
  refine ⟨qs.map truncU64, ?_, ?_, ?_, ?_, ?_⟩
  · rw [Uniform.gen]
    simp only [← hiats, ← hT]
    simp [hqs, hiats, List.map_map, Function.comp_def]
  · simp [hqs, hiats, List.map_map, Function.comp_def]
  · rw [List.length_map, hqslen]
  · have hle := sum_map_truncU64_le qs hqsnn
    rw [hqssum, microsecondsPerMinute] at hle
    exact_mod_cast hle
  · have hqsne : qs ≠ [] := by
      intro hnil
      rw [hnil] at hqslen
      simp at hqslen
      omega
    have hlt := sum_lt_sum_map_truncU64_add qs hqsne
    rw [hqssum, microsecondsPerMinute, hqslen] at hlt
    exact_mod_cast hlt

theorem C6_uniform_iat_count_and_sum_witness :
    ∃ l : List ℕ,
      Uniform.gen 2 (fun _ => (1 : ℚ) / 2) = .ok l ∧
      l = ((List.range 2).map (fun _ => (1 : ℚ) / 2)).map
        (fun x => truncU64 (x * microsecondsPerMinute /
          ((List.range 2).map (fun _ => (1 : ℚ) / 2)).sum)) ∧
      l.length = 2 ∧
      l.sum ≤ 60000000 ∧
      60000000 < l.sum + 2 :=
  C6_uniform_iat_count_and_sum 2 (fun _ => (1 : ℚ) / 2) (by norm_num)
    (fun i => by norm_num)

/-- C7: Equidistant IAT generator.  For every `rpm > 0` (and any RNG, which is
ignored), `Equidistant::gen` returns `Ok` with exactly `rpm` IATs, all equal
to `⌊6·10⁷ / rpm⌋` microseconds. -/
theorem C7_equidistant_iat (rpm : ℕ) (hrpm : 0 < rpm) :
    Equidistant.gen rpm = .ok (List.replicate rpm (60000000 / rpm)) ∧
    (List.replicate rpm (60000000 / rpm)).length = rpm ∧
    ∀ x ∈ List.replicate rpm (60000000 / rpm), x = 60000000 / rpm :=
  ⟨rfl, List.length_replicate rpm _, fun _ hx => List.eq_of_mem_replicate hx⟩

theorem C7_equidistant_iat_witness :
    Equidistant.gen 3 = .ok (List.replicate 3 (60000000 / 3)) ∧
    (List.replicate 3 (60000000 / 3)).length = 3 ∧
    ∀ x ∈ List.replicate 3 (60000000 / 3), x = 60000000 / 3 :=
  C7_equidistant_iat 3 (by norm_num)

theorem runMinutes_skip (range : MinuteRange) (sched : ℕ → List InnerEv)
    (iatOk : ℕ → Bool) (m r : ℕ) (rest : List (ℕ × ℕ)) (ctr n : ℕ)
    (h1 : m < range.start) :
    runMinutes range sched iatOk ((m, r) :: rest) ctr n =
      runMinutes range sched iatOk rest ctr n := by
  simp [runMinutes, h1]

theorem runMinutes_break (range : MinuteRange) (sched : ℕ → List InnerEv)
    (iatOk : ℕ → Bool) (m r : ℕ) (rest : List (ℕ × ℕ)) (ctr n : ℕ)
    (h1 : ¬ m < range.start) (h2 : range.last < m) :
    runMinutes range sched iatOk ((m, r) :: rest) ctr n = ⟨[], [], ctr, .ok n⟩ := by
  simp [runMinutes, h1, h2]

theorem runMinutes_iatErr (range : MinuteRange) (sched : ℕ → List InnerEv)
    (iatOk : ℕ → Bool) (m r : ℕ) (rest : List (ℕ × ℕ)) (ctr n : ℕ)
    (h1 : ¬ m < range.start) (h2 : ¬ range.last < m) (h3 : iatOk m = false) :
    runMinutes range sched iatOk ((m, r) :: rest) ctr n = ⟨[], [], ctr, .error ()⟩ := by
  simp [runMinutes, h1, h2, h3]

theorem runMinutes_quit (range : MinuteRange) (sched : ℕ → List InnerEv)
    (iatOk : ℕ → Bool) (m r : ℕ) (rest : List (ℕ × ℕ)) (ctr n : ℕ)
    (is : List IssueRec) (ctr1 n1 : ℕ)
    (h1 : ¬ m < range.start) (h2 : ¬ range.last < m) (h3 : iatOk m = true)
    (hr : runInner m (sched m) ctr n = (is, ctr1, n1, true)) :
    runMinutes range sched iatOk ((m, r) :: rest) ctr n = ⟨[m], is, ctr1, .ok n1⟩ := by
  simp [runMinutes, h1, h2, h3, hr]

theorem runMinutes_go (range : MinuteRange) (sched : ℕ → List InnerEv)
    (iatOk : ℕ → Bool) (m r : ℕ) (rest : List (ℕ × ℕ)) (ctr n : ℕ)
    (is : List IssueRec) (ctr1 n1 : ℕ)
    (h1 : ¬ m < range.start) (h2 : ¬ range.last < m) (h3 : iatOk m = true)
    (hr : runInner m (sched m) ctr n = (is, ctr1, n1, false)) :
    runMinutes range sched iatOk ((m, r) :: rest) ctr n =
      ⟨m :: (runMinutes range sched iatOk rest ctr1 n1).barriers,
       is ++ (runMinutes range sched iatOk rest ctr1 n1).issues,
       (runMinutes range sched iatOk rest ctr1 n1).counter,
       (runMinutes range sched iatOk rest ctr1 n1).result⟩ := by
  simp [runMinutes, h1, h2, h3, hr]

theorem runInner_minute_eq (m : ℕ) :
    ∀ (evs : List InnerEv) (ctr n : ℕ) (rcd : IssueRec),
      rcd ∈ (runInner m evs ctr n).1 → rcd.minute = m := by
  intro evs
  induction evs with
  | nil => intro ctr n rcd h; simp [runInner] at h
  | cons e rest ih =>
    intro ctr n rcd h
    match e with
    | .quit => simp [runInner] at h
    | .minuteEnd => simp [runInner] at h
    | .issue oc =>
      rcases hr : runInner m rest (ctr + 1) (if oc = .ok then n + 1 else n) with
        ⟨is, ctr1, n1, q⟩
      rw [runInner, hr] at h
      simp only [List.mem_cons] at h
      rcases h with h | h
      · rw [h]
      · have := ih (ctr + 1) (if oc = .ok then n + 1 else n) rcd
        rw [hr] at this
        exact this h

theorem runInner_numRequests (m : ℕ) :
    ∀ (evs : List InnerEv) (ctr n : ℕ),
      (runInner m evs ctr n).2.2.1 = n + okCount (runInner m evs ctr n).1 := by
  intro evs
  induction evs with
  | nil => intro ctr n; simp [runInner, okCount]
  | cons e rest ih =>
    intro ctr n
    match e with
    | .quit => simp [runInner, okCount]
    | .minuteEnd => simp [runInner, okCount]
    | .issue oc =>
      rcases hr : runInner m rest (ctr + 1) (if oc = .ok then n + 1 else n) with
        ⟨is, ctr1, n1, q⟩
      have hih := ih (ctr + 1) (if oc = .ok then n + 1 else n)
      rw [hr] at hih
      rw [runInner, hr]
      simp only at hih ⊢
      cases oc <;> simp [okCount, List.filter] at hih ⊢ <;> omega

theorem runMinutes_scoped (range : MinuteRange) (sched : ℕ → List InnerEv)
    (iatOk : ℕ → Bool) (B : ℕ) :
    ∀ (pairs : List (ℕ × ℕ)) (ctr n : ℕ), (∀ p ∈ pairs, p.1 ≤ B) →
      (∀ rcd ∈ (runMinutes range sched iatOk pairs ctr n).issues,
        range.start ≤ rcd.minute ∧ rcd.minute ≤ range.last ∧ rcd.minute ≤ B) ∧
      (∀ m ∈ (runMinutes range sched iatOk pairs ctr n).barriers,
        range.start ≤ m ∧ m ≤ range.last ∧ m ≤ B) := by
  intro pairs
  induction pairs with
  | nil => intro ctr n _; simp [runMinutes]
  | cons p rest ih =>
    rcases p with ⟨m, r⟩
    intro ctr n hp
    have hmB : m ≤ B := hp (m, r) (List.mem_cons_self _ _)
    have hrest : ∀ q ∈ rest, q.1 ≤ B := fun q hq => hp q (List.mem_cons_of_mem _ hq)
    by_cases h1 : m < range.start
    · rw [runMinutes_skip range sched iatOk m r rest ctr n h1]
      exact ih ctr n hrest
    · by_cases h2 : range.last < m
      · rw [runMinutes_break range sched iatOk m r rest ctr n h1 h2]
        simp
      · have hs : range.start ≤ m := Nat.le_of_not_lt h1
        have he : m ≤ range.last := Nat.le_of_not_lt h2
        by_cases h3 : iatOk m = true
        · rcases hr : runInner m (sched m) ctr n with ⟨is, ctr1, n1, q⟩
          have hmem : ∀ rcd ∈ is, rcd.minute = m := by
            intro rcd hrcd
            have h := runInner_minute_eq m (sched m) ctr n rcd
            rw [hr] at h
            exact h hrcd
          cases q
          · rw [runMinutes_go range sched iatOk m r rest ctr n is ctr1 n1 h1 h2 h3 hr]
            have ihres := ih ctr1 n1 hrest
            constructor
            · intro rcd hrcd
              simp only [List.mem_append] at hrcd
              rcases hrcd with hrcd | hrcd
              · rw [hmem rcd hrcd]; exact ⟨hs, he, hmB⟩
              · exact ihres.1 rcd hrcd
            · intro m' hm'
              simp only [List.mem_cons] at hm'
              rcases hm' with rfl | hm'
              · exact ⟨hs, he, hmB⟩
              · exact ihres.2 m' hm'
          · rw [runMinutes_quit range sched iatOk m r rest ctr n is ctr1 n1 h1 h2 h3 hr]
            constructor
            · intro rcd hrcd
              simp only at hrcd
              rw [hmem rcd hrcd]
              exact ⟨hs, he, hmB⟩
            · intro m' hm'
              simp only [List.mem_singleton] at hm'
              rw [hm']
              exact ⟨hs, he, hmB⟩
        · rw [runMinutes_iatErr range sched iatOk m r rest ctr n h1 h2
            (Bool.eq_false_iff.mpr h3)]
          simp

theorem runMinutes_numRequests (range : MinuteRange) (sched : ℕ → List InnerEv)
    (iatOk : ℕ → Bool) (hok : ∀ m, iatOk m = true) :
    ∀ (pairs : List (ℕ × ℕ)) (ctr n : ℕ),
      (runMinutes range sched iatOk pairs ctr n).result =
        .ok (n + okCount (runMinutes range sched iatOk pairs ctr n).issues) := by
  intro pairs
  induction pairs with
  | nil => intro ctr n; simp [runMinutes, okCount]
  | cons p rest ih =>
    rcases p with ⟨m, r⟩
    intro ctr n
    by_cases h1 : m < range.start
    · rw [runMinutes_skip range sched iatOk m r rest ctr n h1]
      exact ih ctr n
    · by_cases h2 : range.last < m
      · rw [runMinutes_break range sched iatOk m r rest ctr n h1 h2]
        simp [okCount]
      · rcases hr : runInner m (sched m) ctr n with ⟨is, ctr1, n1, q⟩
        have hcount := runInner_numRequests m (sched m) ctr n
        rw [hr] at hcount
        simp only at hcount
        cases q
        · rw [runMinutes_go range sched iatOk m r rest ctr n is ctr1 n1 h1 h2 (hok m) hr]
          have ihres := ih ctr1 n1
          simp only [okCount, List.filter_append, List.length_append] at ihres ⊢
          rw [ihres, hcount]
          simp [okCount]
          omega
        · rw [runMinutes_quit range sched iatOk m r rest ctr n is ctr1 n1 h1 h2 (hok m) hr]
          simp only
          rw [hcount]

theorem minutePairs_fst_le (rpm : List ℕ) :
    ∀ p ∈ minutePairs rpm, 1 ≤ p.1 ∧ p.1 ≤ rpm.length := by
  intro p hp
  rw [minutePairs] at hp
  rcases List.mem_map.mp hp with ⟨q, hq, rfl⟩
  have hall : ∀ x ∈ rpm.enum, x.1 < rpm.length :=
    List.forall_mem_enum.mpr fun i hi => hi
  have := hall q hq
  exact ⟨Nat.le_add_left 1 q.1, this⟩

/-- C2: range scoping.  For every Worker run (any `MinuteRange`, RPM
schedule, select schedule, IAT-generation outcomes and counter start), no
request is issued for a minute outside the configured range: every issued
request's minute `m` satisfies `range.start ≤ m ≤ range.end` and
`m ≤ len(rpm)`, and the Worker arrives at the barrier only for such minutes —
minutes `m < range.start` are skipped without arriving at the barrier, and
the minute loop breaks at the first `m > range.end`, issuing nothing for it
or any later minute. -/
theorem C2_range_scoping (range : MinuteRange) (rpm : List ℕ)
    (sched : ℕ → List InnerEv) (iatOk : ℕ → Bool) (ctr0 : ℕ) :
    (∀ rcd ∈ (FunctionWorker.run range rpm sched iatOk ctr0).issues,
      range.start ≤ rcd.minute ∧ rcd.minute ≤ range.last ∧
        rcd.minute ≤ rpm.length) ∧
    (∀ m ∈ (FunctionWorker.run range rpm sched iatOk ctr0).barriers,
      range.start ≤ m ∧ m ≤ range.last ∧ m ≤ rpm.length) := by
  have h := runMinutes_scoped range sched iatOk rpm.length (minutePairs rpm) ctr0 0
    (fun p hp => (minutePairs_fst_le rpm p hp).2)
  exact h

/-- C9: backend errors are swallowed.  Every `backend.issue` error during a
Worker's run is only logged: it neither terminates the Worker nor is
propagated out of `run`; `num_requests` is incremented only for `Ok` issues,
and on normal completion (no IAT-generation failure) the Worker returns
`Ok(num_requests)` counting exactly the successful issues of its trace. -/
theorem C9_backend_errors_swallowed (range : MinuteRange) (rpm : List ℕ)
    (sched : ℕ → List InnerEv) (iatOk : ℕ → Bool) (ctr0 : ℕ)
    (hok : ∀ m, iatOk m = true) :
    (FunctionWorker.run range rpm sched iatOk ctr0).result =
      .ok (okCount (FunctionWorker.run range rpm sched iatOk ctr0).issues) := by
  have h := runMinutes_numRequests range sched iatOk hok (minutePairs rpm) ctr0 0
  rw [Nat.zero_add] at h
  exact h

theorem C9_backend_errors_swallowed_witness :
    (FunctionWorker.run ⟨1, 65535⟩ [3]
        (fun _ => [.issue .err, .issue .ok, .issue .err, .issue .ok, .minuteEnd])
        (fun _ => true) 0).result =
      .ok (okCount (FunctionWorker.run ⟨1, 65535⟩ [3]
        (fun _ => [.issue .err, .issue .ok, .issue .err, .issue .ok, .minuteEnd])
        (fun _ => true) 0).issues) ∧
    (FunctionWorker.run ⟨1, 65535⟩ [3]
        (fun _ => [.issue .err, .issue .ok, .issue .err, .issue .ok, .minuteEnd])
        (fun _ => true) 0).result = .ok 2 ∧
    (FunctionWorker.run ⟨1, 65535⟩ [3]
        (fun _ => [.issue .err, .issue .ok, .issue .err, .issue .ok, .minuteEnd])
        (fun _ => true) 0).issues.length = 4 :=
  ⟨C9_backend_errors_swallowed ⟨1, 65535⟩ [3]
      (fun _ => [.issue .err, .issue .ok, .issue .err, .issue .ok, .minuteEnd])
      (fun _ => true) 0 (fun _ => rfl),
    by rfl, by rfl⟩

theorem decDigitsAux_length_le (k : ℕ) :
    ∀ n : ℕ, n < 10 ^ k → (decDigitsAux n).length ≤ k := by
  induction k with
  | zero =>
    intro n hn
    interval_cases n
    simp [decDigitsAux]
  | succ k ih =>
    intro n hn
    match n with
    | 0 => simp [decDigitsAux]
    | m + 1 =>
      rw [decDigitsAux]
      rw [List.length_append]
      have hdiv : (m + 1) / 10 < 10 ^ k := by
        rw [Nat.div_lt_iff_lt_mul (by norm_num)]
        calc m + 1 < 10 ^ (k + 1) := hn
          _ = 10 ^ k * 10 := by ring
      have := ih ((m + 1) / 10) hdiv
      simp only [List.length_singleton]
      omega

theorem decRepr_length_le (n : ℕ) (hn : n < 2 ^ 64) : (decRepr n).length ≤ 24 := by
  rw [decRepr]
  by_cases h : n = 0
  · simp [h]
  · rw [if_neg h]
    have h24 : n < 10 ^ 24 := by
      calc n < 2 ^ 64 := hn
        _ < 10 ^ 24 := by norm_num
    exact (decDigitsAux_length_le 24 n h24)

theorem format024_length (n : ℕ) (hn : n < 2 ^ 64) : (format024 n).length = 24 := by
  have hle := decRepr_length_le n hn
  rw [format024]
  show (List.replicate (24 - (decRepr n).length) (decDigit 0) ++ decRepr n).length = 24
  rw [List.length_append, List.length_replicate]
  omega

theorem issueIds_eq_range_map (S : ℕ) :
    ∀ ws : List ℕ, S + ws.length ≤ 2 ^ 64 →
      issueIds S ws = (List.range ws.length).map fun k => S + k := by
  intro ws
  induction ws generalizing S with
  | nil => intro _; simp [issueIds]
  | cons w ws ih =>
    intro hle
    rw [List.length_cons] at hle
    have hS : S < 2 ^ 64 := by omega
    rw [issueIds, Nat.mod_eq_of_lt hS, List.length_cons, List.range_succ_eq_map,
      List.map_cons, List.map_map]
    congr 1
    rw [ih (S + 1) (by omega)]
    apply List.map_congr_left
    intro k _
    simp [Function.comp]
    omega

/-- C1 (amended): invocation-id monotonicity, uniqueness and format.  Across
`N` Workers issuing a total of `K` requests under any interleaving, with the
shared counter seeded at `invoc_id_start = S`, **provided the `u64` counter
does not wrap (`S + K ≤ 2 ^ 64`)**, the issued ids are exactly
`S, S + 1, …, S + K - 1` in issue order — strictly increasing, pairwise
distinct, and with `{S, …, S + K - 1}` as their set — and every id drawn
from a `u64` counter value is formatted by `{:024}` as a string of exactly
24 characters. -/
theorem C1_invocation_ids (S : ℕ) (ws : List ℕ) (n : ℕ)
    (hS : S + ws.length ≤ 2 ^ 64) (hn : n < 2 ^ 64) :
    issueIds S ws = ((List.range ws.length).map fun k => S + k) ∧
    (∀ i, i ∈ issueIds S ws ↔ S ≤ i ∧ i < S + ws.length) ∧
    List.Pairwise (· < ·) (issueIds S ws) ∧
    (issueIds S ws).Nodup ∧
    (format024 n).length = 24 := by
  have heq := issueIds_eq_range_map S ws hS
  have hpw : List.Pairwise (· < ·) (issueIds S ws) := by
    rw [heq]
    exact List.Pairwise.map _ (fun a b hab => by omega)
      (List.pairwise_lt_range ws.length)
  refine ⟨heq, ?_, hpw, hpw.imp fun hab => Nat.ne_of_lt hab,
    format024_length n hn⟩
  intro i
  rw [heq]
  simp only [List.mem_map, List.mem_range]
  constructor
  · rintro ⟨k, hk, rfl⟩; omega
  · rintro ⟨h1, h2⟩; exact ⟨i - S, by omega, by omega⟩

theorem C1_invocation_ids_witness :
    (100 + ([0, 0, 0] : List ℕ).length ≤ 2 ^ 64 ∧ 7 < 2 ^ 64) ∧
    (issueIds 100 [0, 0, 0] = ((List.range ([0, 0, 0] : List ℕ).length).map
      fun k => 100 + k) ∧
    (∀ i, i ∈ issueIds 100 [0, 0, 0] ↔ 100 ≤ i ∧ i < 100 + ([0, 0, 0] : List ℕ).length) ∧
    List.Pairwise (· < ·) (issueIds 100 [0, 0, 0]) ∧
    (issueIds 100 [0, 0, 0]).Nodup ∧
    (format024 7).length = 24) ∧
    issueIds 100 [0, 0, 0] = [100, 101, 102] :=
  ⟨⟨by norm_num, by norm_num⟩,
    C1_invocation_ids 100 [0, 0, 0] 7 (by norm_num) (by norm_num),
    by norm_num [issueIds]⟩

/-- C1 counterexample: with the counter seeded at `S = 2 ^ 64 - 1` (a valid
`u64` value) and `K = 2` requests issued, the `AtomicU64` `fetch_add` wraps,
so the second issued id is `0`, which lies outside `{S, S + 1}`: the id set
claimed by C1 is not attained and the ids are not monotonic. -/
theorem C1_invocation_ids_counterexample :
    issueIds (2 ^ 64 - 1) [0, 0] = [2 ^ 64 - 1, 0] ∧
    0 ∈ issueIds (2 ^ 64 - 1) [0, 0] ∧
    ¬ (2 ^ 64 - 1 ≤ 0 ∧ (0 : ℕ) < (2 ^ 64 - 1) + 2) ∧
    ¬ List.Pairwise (· < ·) (issueIds (2 ^ 64 - 1) [0, 0]) := by
  have h1 : (2 ^ 64 - 1) % 2 ^ 64 = 2 ^ 64 - 1 := Nat.mod_eq_of_lt (by norm_num)
  have h2 : (2 ^ 64 - 1 + 1) % 2 ^ 64 = 0 := by norm_num
  have heq : issueIds (2 ^ 64 - 1) [0, 0] = [2 ^ 64 - 1, 0] := by
    rw [issueIds, issueIds, issueIds, h1, h2]
  refine ⟨heq, ?_, ?_, ?_⟩
  · rw [heq]; simp
  · intro ⟨h, _⟩
    omega
  · rw [heq]
    intro hpw
    have := List.rel_of_pairwise_cons hpw (List.mem_singleton.mpr rfl)
    omega

/-! ### Digit and character lemmas -/

theorem decDigit_isDigit {r : ℕ} (hr : r < 10) : (decDigit r).isDigit = true := by
  interval_cases r <;> decide

theorem decDigit_toNat {r : ℕ} (hr : r < 10) : (decDigit r).toNat = 48 + r := by
  interval_cases r <;> decide

theorem decDigit_ne_zero_char {r : ℕ} (hr1 : 1 ≤ r) (hr : r < 10) :
    decDigit r ≠ '0' := by
  interval_cases r <;> decide

theorem decDigitsAux_mem (n : ℕ) :
    ∀ c ∈ decDigitsAux n, ∃ r, r < 10 ∧ c = decDigit r := by
  induction n using Nat.strong_induction_on with
  | _ k ih =>
    match k with
    | 0 => intro c hc; simp [decDigitsAux] at hc
    | m + 1 =>
      intro c hc
      rw [decDigitsAux] at hc
      rcases List.mem_append.mp hc with hc | hc
      · exact ih ((m + 1) / 10) (Nat.div_lt_self (Nat.succ_pos m) (by norm_num)) c hc
      · rw [List.mem_singleton] at hc
        exact ⟨(m + 1) % 10, Nat.mod_lt _ (by norm_num), hc⟩

theorem decDigitsAux_ne_nil {n : ℕ} (hn : 0 < n) : decDigitsAux n ≠ [] := by
  match n with
  | m + 1 =>
    rw [decDigitsAux]
    simp

theorem decDigitsAux_head_ne_zero (n : ℕ) :
    ∀ d ds, decDigitsAux n = d :: ds → d ≠ '0' := by
  induction n using Nat.strong_induction_on with
  | _ k ih =>
    match k with
    | 0 => intro d ds h; simp [decDigitsAux] at h
    | m + 1 =>
      intro d ds h
      rw [decDigitsAux] at h
      by_cases hq : (m + 1) / 10 = 0
      · rw [hq] at h
        simp only [decDigitsAux, List.nil_append, List.cons.injEq] at h
        have hmod : (m + 1) % 10 = m + 1 := by
          have := Nat.div_add_mod (m + 1) 10
          omega
        have hlt : (m + 1) % 10 < 10 := Nat.mod_lt _ (by norm_num)
        rw [hmod] at hlt
        rw [← h.1, hmod]
        exact decDigit_ne_zero_char (Nat.succ_pos m) hlt
      · rcases hds : decDigitsAux ((m + 1) / 10) with _ | ⟨d0, ds0⟩
        · exact absurd hds (decDigitsAux_ne_nil (Nat.pos_of_ne_zero hq))
        · rw [hds] at h
          simp only [List.cons_append, List.cons.injEq] at h
          rcases h with ⟨h1, h2⟩
          subst h1
          exact ih ((m + 1) / 10) (Nat.div_lt_self (Nat.succ_pos m) (by norm_num))
            _ ds0 hds

theorem foldl_digits (ds : List Char) :
    ∀ a : ℕ, ds.foldl (fun acc c => 10 * acc + (c.toNat - 48)) a =
      a * 10 ^ ds.length + digitsVal ds := by
  induction ds with
  | nil => intro a; simp [digitsVal]
  | cons c ds ih =>
    intro a
    have hL : List.foldl (fun acc c => 10 * acc + (c.toNat - 48)) a (c :: ds)
        = (10 * a + (c.toNat - 48)) * 10 ^ ds.length + digitsVal ds := by
      rw [List.foldl_cons, ih]
    have hR : digitsVal (c :: ds)
        = (10 * 0 + (c.toNat - 48)) * 10 ^ ds.length + digitsVal ds := by
      rw [show digitsVal (c :: ds) = List.foldl (fun acc c => 10 * acc + (c.toNat - 48))
        (10 * 0 + (c.toNat - 48)) ds from rfl, ih]
    rw [hL, hR, List.length_cons]
    ring

theorem digitsVal_decDigitsAux (n : ℕ) : digitsVal (decDigitsAux n) = n := by
  induction n using Nat.strong_induction_on with
  | _ k ih =>
    match k with
    | 0 => simp [decDigitsAux, digitsVal]
    | m + 1 =>
      rw [decDigitsAux, digitsVal, List.foldl_append, foldl_digits]
      have hih : (m + 1) / 10 < m + 1 := Nat.div_lt_self (Nat.succ_pos m) (by norm_num)
      have hv := ih ((m + 1) / 10) hih
      rw [digitsVal] at hv ⊢
      rw [hv]
      simp only [List.foldl_cons, List.foldl_nil, List.length_singleton]
      rw [decDigit_toNat (Nat.mod_lt _ (by norm_num))]
      have := Nat.div_add_mod (m + 1) 10
      omega

theorem takeWhile_append_all (p : Char → Bool) :
    ∀ (l rest : List Char), (∀ c ∈ l, p c = true) →
      (∀ r, rest.head? = some r → p r = false) →
      (l ++ rest).takeWhile p = l ∧ (l ++ rest).dropWhile p = rest := by
  intro l
  induction l with
  | nil =>
    intro rest _ hrest
    match rest with
    | [] => exact ⟨rfl, rfl⟩
    | r :: rs =>
      have := hrest r rfl
      simp [List.takeWhile, List.dropWhile, this]
  | cons c l ih =>
    intro rest hall hrest
    have hc := hall c (List.mem_cons_self c l)
    have hl := ih rest (fun x hx => hall x (List.mem_cons_of_mem c hx)) hrest
    simp only [List.cons_append, List.takeWhile, List.dropWhile, hc]
    refine ⟨?_, hl.2⟩
    show c :: List.takeWhile p (l ++ rest) = c :: l
    rw [hl.1]

theorem decRepr_all_digits (n : ℕ) : ∀ c ∈ decRepr n, c.isDigit = true := by
  intro c hc
  rw [decRepr] at hc
  by_cases h : n = 0
  · rw [if_pos h, List.mem_singleton] at hc
    rw [hc]
    exact decDigit_isDigit (by norm_num)
  · rw [if_neg h] at hc
    rcases decDigitsAux_mem n c hc with ⟨r, hr, rfl⟩
    exact decDigit_isDigit hr

theorem digitsVal_decRepr (n : ℕ) : digitsVal (decRepr n) = n := by
  rw [decRepr]
  by_cases h : n = 0
  · rw [if_pos h, h]
    decide
  · rw [if_neg h]
    exact digitsVal_decDigitsAux n

theorem parsePosNum_decRepr (n : ℕ) (rest : List Char)
    (hrest : noDigitHead rest) :
    parsePosNum (decRepr n ++ rest) = some (n, rest) := by
  have htw := takeWhile_append_all (fun c => c.isDigit) (decRepr n) rest
    (decRepr_all_digits n) hrest
  rw [parsePosNum]
  simp only [htw.1, htw.2]
  by_cases h : n = 0
  · subst h
    rw [show decRepr 0 = [decDigit 0] from rfl]
    rw [if_neg (by decide), if_neg (by decide),
      show digitsVal [decDigit 0] = 0 from by decide]
  · have hne : decRepr n ≠ [] := by
      rw [decRepr, if_neg h]
      exact decDigitsAux_ne_nil (Nat.pos_of_ne_zero h)
    rcases hds : decRepr n with _ | ⟨d, ds⟩
    · exact absurd hds hne
    · have hd0 : d ≠ '0' := by
        apply decDigitsAux_head_ne_zero n d ds
        rw [decRepr, if_neg h] at hds
        exact hds
      have hlz : ¬ (1 < (d :: ds).length ∧ (d :: ds).head? = some '0') := by
        rintro ⟨_, hh⟩
        simp only [List.head?_cons, Option.some.injEq] at hh
        exact hd0 hh
      rw [if_neg (by simp), if_neg hlz]
      have hdv := digitsVal_decRepr n
      rw [hds] at hdv
      rw [hdv]

theorem parseNumber_serInt (m : Int) (rest : List Char)
    (hrest : noDigitHead rest) :
    parseNumber (serInt m ++ rest) = some (Json.num m, rest) := by
  rcases lt_or_le m 0 with hm | hm
  · rw [serInt, if_pos hm]
    rw [List.cons_append, parseNumber, if_pos rfl,
      parsePosNum_decRepr m.natAbs rest hrest]
    simp only [Option.map_some']
    have hcast : -((m.natAbs : ℤ)) = m := by omega
    rw [hcast]
  · rw [serInt, if_neg (not_lt.mpr hm)]
    have hne : decRepr m.toNat ≠ [] := by
      rw [decRepr]
      by_cases h : m.toNat = 0
      · rw [if_pos h]; simp
      · rw [if_neg h]; exact decDigitsAux_ne_nil (Nat.pos_of_ne_zero h)
    rcases hds : decRepr m.toNat with _ | ⟨d, ds⟩
    · exact absurd hds hne
    · have hdig : d.isDigit = true := by
        apply decRepr_all_digits m.toNat
        rw [hds]
        exact List.mem_cons_self d ds
      have hdne : d ≠ '-' := by
        intro hd
        rw [hd] at hdig
        exact absurd hdig (by decide)
      rw [List.cons_append, parseNumber, if_neg hdne, ← List.cons_append, ← hds,
        parsePosNum_decRepr m.toNat rest hrest]
      simp only [Option.map_some']
      rw [Int.toNat_of_nonneg hm]

theorem hexVal_hexDigit {m : ℕ} (hm : m < 16) : hexVal (hexDigit m) = some m := by
  interval_cases m <;> decide

theorem parseStrChars_quote (xs : List Char) :
    parseStrChars ('"' :: xs) = some ([], xs) := by
  rw [parseStrChars.eq_def]
  simp +decide

theorem parseStrChars_raw (c : Char) (xs : List Char)
    (h1 : ¬ c = '"') (h2 : ¬ c = '\\') (h3 : ¬ c.toNat < 32) :
    parseStrChars (c :: xs) = (parseStrChars xs).map fun p => (c :: p.1, p.2) := by
  rw [parseStrChars.eq_def]
  simp only [h1, h2, h3, if_false]

theorem parseStrChars_escQuote (xs : List Char) :
    parseStrChars ('\\' :: '"' :: xs) =
      (parseStrChars xs).map fun p => ('"' :: p.1, p.2) := by
  rw [parseStrChars.eq_def]
  simp +decide

theorem parseStrChars_escBackslash (xs : List Char) :
    parseStrChars ('\\' :: '\\' :: xs) =
      (parseStrChars xs).map fun p => ('\\' :: p.1, p.2) := by
  rw [parseStrChars.eq_def]
  simp +decide

theorem parseStrChars_escB (xs : List Char) :
    parseStrChars ('\\' :: 'b' :: xs) =
      (parseStrChars xs).map fun p => (Char.ofNat 8 :: p.1, p.2) := by
  rw [parseStrChars.eq_def]
  simp +decide

theorem parseStrChars_escT (xs : List Char) :
    parseStrChars ('\\' :: 't' :: xs) =
      (parseStrChars xs).map fun p => (Char.ofNat 9 :: p.1, p.2) := by
  rw [parseStrChars.eq_def]
  simp +decide

theorem parseStrChars_escN (xs : List Char) :
    parseStrChars ('\\' :: 'n' :: xs) =
      (parseStrChars xs).map fun p => (Char.ofNat 10 :: p.1, p.2) := by
  rw [parseStrChars.eq_def]
  simp +decide

theorem parseStrChars_escF (xs : List Char) :
    parseStrChars ('\\' :: 'f' :: xs) =
      (parseStrChars xs).map fun p => (Char.ofNat 12 :: p.1, p.2) := by
  rw [parseStrChars.eq_def]
  simp +decide

theorem parseStrChars_escR (xs : List Char) :
    parseStrChars ('\\' :: 'r' :: xs) =
      (parseStrChars xs).map fun p => (Char.ofNat 13 :: p.1, p.2) := by
  rw [parseStrChars.eq_def]
  simp +decide

theorem parseStrChars_escU (a b : Char) (x3 x4 : ℕ) (xs : List Char)
    (ha : hexVal a = some x3) (hb : hexVal b = some x4) :
    parseStrChars ('\\' :: 'u' :: '0' :: '0' :: a :: b :: xs) =
      (if 55296 ≤ x3 * 16 + x4 ∧ x3 * 16 + x4 < 57344 then none
       else (parseStrChars xs).map
         fun p => (Char.ofNat (x3 * 16 + x4) :: p.1, p.2)) := by
  rw [parseStrChars.eq_def]
  simp +decide [ha, hb, show hexVal '0' = some 0 from by decide]

theorem parseStrChars_escape (l : List Char) :
    ∀ rest, parseStrChars (escapeList l ++ '"' :: rest) = some (l, rest) := by
  induction l with
  | nil => intro rest; rw [escapeList, List.nil_append, parseStrChars_quote]
  | cons c cs ih =>
    intro rest
    rw [escapeList, List.append_assoc]
    by_cases h1 : c = '"'
    · subst h1
      rw [show escapeChar '"' = ['\\', '"'] from rfl, List.cons_append,
        List.cons_append, List.nil_append, parseStrChars_escQuote, ih rest]
      rfl
    · by_cases h2 : c = '\\'
      · subst h2
        rw [show escapeChar '\\' = ['\\', '\\'] from by decide, List.cons_append,
          List.cons_append, List.nil_append, parseStrChars_escBackslash, ih rest]
        rfl
      · by_cases h3 : c = Char.ofNat 8
        · subst h3
          rw [show escapeChar (Char.ofNat 8) = ['\\', 'b'] from by decide,
            List.cons_append, List.cons_append, List.nil_append,
            parseStrChars_escB, ih rest]
          rfl
        · by_cases h4 : c = Char.ofNat 9
          · subst h4
            rw [show escapeChar (Char.ofNat 9) = ['\\', 't'] from by decide,
              List.cons_append, List.cons_append, List.nil_append,
              parseStrChars_escT, ih rest]
            rfl
          · by_cases h5 : c = Char.ofNat 10
            · subst h5
              rw [show escapeChar (Char.ofNat 10) = ['\\', 'n'] from by decide,
                List.cons_append, List.cons_append, List.nil_append,
                parseStrChars_escN, ih rest]
              rfl
            · by_cases h6 : c = Char.ofNat 12
              · subst h6
                rw [show escapeChar (Char.ofNat 12) = ['\\', 'f'] from by decide,
                  List.cons_append, List.cons_append, List.nil_append,
                  parseStrChars_escF, ih rest]
                rfl
              · by_cases h7 : c = Char.ofNat 13
                · subst h7
                  rw [show escapeChar (Char.ofNat 13) = ['\\', 'r'] from by decide,
                    List.cons_append, List.cons_append, List.nil_append,
                    parseStrChars_escR, ih rest]
                  rfl
                · by_cases h8 : c.toNat < 32
                  · have hesc : escapeChar c = ['\\', 'u', '0', '0',
                        hexDigit (c.toNat / 16), hexDigit (c.toNat % 16)] := by
                      rw [escapeChar, if_neg h1, if_neg h2, if_neg h3, if_neg h4,
                        if_neg h5, if_neg h6, if_neg h7, if_pos h8]
                    rw [hesc]
                    simp only [List.cons_append, List.nil_append]
                    rw [parseStrChars_escU _ _ (c.toNat / 16) (c.toNat % 16) _
                      (hexVal_hexDigit (Nat.div_lt_of_lt_mul (by omega)))
                      (hexVal_hexDigit (Nat.mod_lt _ (by norm_num)))]
                    rw [if_neg (by omega)]
                    rw [ih rest]
                    simp only [Option.map_some']
                    rw [show c.toNat / 16 * 16 + c.toNat % 16 = c.toNat from by omega]
                    rw [Char.ofNat_toNat]
                  · have hesc : escapeChar c = [c] := by
                      rw [escapeChar, if_neg h1, if_neg h2, if_neg h3, if_neg h4,
                        if_neg h5, if_neg h6, if_neg h7, if_neg h8]
                    rw [hesc, List.singleton_append,
                      parseStrChars_raw c _ h1 h2 h8, ih rest]
                    rfl

theorem fsize_pos (j : Json) : 1 ≤ fsize j := by
  match j with
  | .null | .bool _ | .num _ | .str _ => simp [fsize]
  | .arr es => rw [fsize]; omega
  | .obj ms => rw [fsize]; omega

theorem fsizeL_pos (es : List Json) (h : es ≠ []) : 1 ≤ fsizeL es := by
  match es with
  | [] => exact absurd rfl h
  | e :: es => rw [fsizeL]; omega

theorem fsizeM_pos (ms : List (String × Json)) (h : ms ≠ []) : 1 ≤ fsizeM ms := by
  match ms with
  | [] => exact absurd rfl h
  | (k, v) :: ms => rw [fsizeM]; omega

theorem decRepr_ne_nil (n : ℕ) : decRepr n ≠ [] := by
  rw [decRepr]
  by_cases h : n = 0
  · rw [if_pos h]; simp
  · rw [if_neg h]; exact decDigitsAux_ne_nil (Nat.pos_of_ne_zero h)

mutual

theorem fsize_le_len (j : Json) : fsize j ≤ (serVal j).length := by
  match j with
  | .null => rw [fsize, serVal]; norm_num
  | .bool b => match b with
    | true => rw [fsize, serVal]; norm_num
    | false => rw [fsize, serVal]; norm_num
  | .num n =>
    rw [fsize, serVal, serInt]
    have h0 : decRepr n.natAbs ≠ [] := decRepr_ne_nil n.natAbs
    have h1 : decRepr n.toNat ≠ [] := decRepr_ne_nil n.toNat
    split
    · simp only [List.length_cons]
      omega
    · have := List.length_pos.mpr h1
      omega
  | .str s => rw [fsize, serVal, serStrLit]; simp
  | .arr es =>
    have h := fsizeL_le_len es
    rw [fsize, serVal]
    simp only [List.length_cons, List.length_append, List.length_singleton]
    omega
  | .obj ms =>
    have h := fsizeM_le_len ms
    rw [fsize, serVal]
    simp only [List.length_cons, List.length_append, List.length_singleton]
    omega

theorem fsizeL_le_len (es : List Json) : fsizeL es ≤ (serElems es).length + 1 := by
  match es with
  | [] => rw [fsizeL, serElems]; simp
  | [e] =>
    have := fsize_le_len e
    rw [fsizeL, fsizeL, serElems]
    omega
  | e :: e2 :: es =>
    have h1 := fsize_le_len e
    have h2 := fsizeL_le_len (e2 :: es)
    rw [fsizeL, serElems]
    simp only [List.length_append, List.length_cons]
    omega

theorem fsizeM_le_len (ms : List (String × Json)) :
    fsizeM ms ≤ (serMembers ms).length + 1 := by
  match ms with
  | [] => rw [fsizeM, serMembers]; simp
  | [(k, v)] =>
    have := fsize_le_len v
    rw [fsizeM, fsizeM, serMembers]
    simp only [List.length_append, List.length_cons]
    omega
  | (k, v) :: m2 :: ms =>
    have h1 := fsize_le_len v
    have h2 := fsizeM_le_len (m2 :: ms)
    rw [fsizeM, serMembers]
    simp only [List.length_append, List.length_cons]
    omega

end

theorem skipWs_cons_not (c : Char) (cs : List Char) (h : isWs c = false) :
    skipWs (c :: cs) = c :: cs := by
  rw [skipWs, h]
  simp

theorem decDigit_head_facts {r : ℕ} (hr : r < 10) :
    isWs (decDigit r) = false ∧ ¬ decDigit r = 'n' ∧ ¬ decDigit r = 't' ∧
    ¬ decDigit r = 'f' ∧ ¬ decDigit r = '"' ∧ ¬ decDigit r = '[' ∧
    ¬ decDigit r = Char.ofNat 123 ∧ ¬ decDigit r = ']' ∧
    ¬ decDigit r = Char.ofNat 125 ∧ ¬ decDigit r = ',' ∧
    (decDigit r = '-' ∨ (decDigit r).isDigit = true) := by
  interval_cases r <;> refine ⟨?_, ?_, ?_, ?_, ?_, ?_, ?_, ?_, ?_, ?_, ?_⟩ <;>
    decide

theorem decRepr_head (m : ℕ) :
    ∃ r ds, r < 10 ∧ decRepr m = decDigit r :: ds := by
  rw [decRepr]
  by_cases h : m = 0
  · rw [if_pos h]
    exact ⟨0, [], by norm_num, rfl⟩
  · rw [if_neg h]
    rcases hds : decDigitsAux m with _ | ⟨d, ds⟩
    · exact absurd hds (decDigitsAux_ne_nil (Nat.pos_of_ne_zero h))
    · have hd : d ∈ decDigitsAux m := by rw [hds]; exact List.mem_cons_self d ds
      rcases decDigitsAux_mem m d hd with ⟨r, hr, rfl⟩
      exact ⟨r, ds, hr, rfl⟩

theorem serInt_head (n : Int) :
    ∃ c cs, serInt n = c :: cs ∧ (c = '-' ∨ ∃ r, r < 10 ∧ c = decDigit r) := by
  rw [serInt]
  split
  · exact ⟨'-', decRepr n.natAbs, rfl, Or.inl rfl⟩
  · rcases decRepr_head n.toNat with ⟨r, ds, hr, hds⟩
    exact ⟨decDigit r, ds, hds, Or.inr ⟨r, hr, rfl⟩⟩

theorem serVal_head (j : Json) :
    ∃ c cs, serVal j = c :: cs ∧
      (c = 'n' ∨ c = 't' ∨ c = 'f' ∨ c = '"' ∨ c = '[' ∨ c = Char.ofNat 123 ∨
        c = '-' ∨ ∃ r, r < 10 ∧ c = decDigit r) := by
  match j with
  | .null => exact ⟨'n', _, by rw [serVal], by tauto⟩
  | .bool true => exact ⟨'t', _, by rw [serVal], by tauto⟩
  | .bool false => exact ⟨'f', _, by rw [serVal], by tauto⟩
  | .num n =>
    rcases serInt_head n with ⟨c, cs, hcs, hc⟩
    refine ⟨c, cs, by rw [serVal, hcs], ?_⟩
    rcases hc with hc | hc
    · tauto
    · tauto
  | .str s => exact ⟨'"', _, by rw [serVal, serStrLit], by tauto⟩
  | .arr es => exact ⟨'[', _, by rw [serVal], by tauto⟩
  | .obj ms => exact ⟨Char.ofNat 123, _, by rw [serVal], by tauto⟩

theorem serVal_head_facts (j : Json) :
    ∃ c cs, serVal j = c :: cs ∧ isWs c = false ∧ ¬ c = ']' ∧
      ¬ c = Char.ofNat 125 := by
  rcases serVal_head j with ⟨c, cs, hcs, hc⟩
  refine ⟨c, cs, hcs, ?_⟩
  rcases hc with rfl | rfl | rfl | rfl | rfl | rfl | rfl | ⟨r, hr, rfl⟩
  case intro.intro.intro.inr.inr.inr.inr.inr.inr.inr.intro.intro =>
    have h := decDigit_head_facts hr
    exact ⟨h.1, h.2.2.2.2.2.2.2.1, h.2.2.2.2.2.2.2.2.1⟩
  all_goals refine ⟨?_, ?_, ?_⟩ <;> decide

theorem insertKV_not_mem (acc : List (String × Json)) (k : String) (v : Json)
    (h : k ∉ acc.map Prod.fst) : insertKV acc k v = acc ++ [(k, v)] := by
  induction acc with
  | nil => rfl
  | cons p acc ih =>
    rcases p with ⟨k0, v0⟩
    simp only [List.map_cons, List.mem_cons] at h
    push_neg at h
    rw [insertKV, if_neg (fun hk => h.1 hk.symm), ih h.2]
    rfl

theorem parseVal_num_branch (fuel : ℕ) (c : Char) (cs : List Char)
    (h : isWs c = false)
    (h1 : ¬ c = 'n') (h2 : ¬ c = 't') (h3 : ¬ c = 'f') (h4 : ¬ c = '"')
    (h5 : ¬ c = '[') (h6 : ¬ c = Char.ofNat 123)
    (h7 : c = '-' ∨ c.isDigit = true) :
    parseVal (fuel + 1) (c :: cs) = parseNumber (c :: cs) := by
  simp only [parseVal]
  rw [skipWs_cons_not c _ h]
  simp only [if_neg h1, if_neg h2, if_neg h3, if_neg h4, if_neg h5, if_neg h6,
    if_pos h7]

theorem parseVal_arr_branch (fuel : ℕ) (cs1 : List Char) :
    parseVal (fuel + 1) ('[' :: cs1) =
      (match skipWs cs1 with
        | [] => none
        | d :: rest =>
          if d = ']' then some (.arr [], rest)
          else (parseElems fuel (d :: rest)).map fun p => (.arr p.1, p.2)) := by
  simp only [parseVal]
  rw [skipWs_cons_not '[' _ (by decide)]
  simp +decide

theorem parseVal_obj_branch (fuel : ℕ) (cs1 : List Char) :
    parseVal (fuel + 1) (Char.ofNat 123 :: cs1) =
      (match skipWs cs1 with
        | [] => none
        | d :: rest =>
          if d = Char.ofNat 125 then some (.obj [], rest)
          else (parseMembers fuel [] (d :: rest)).map fun p => (.obj p.1, p.2)) := by
  simp only [parseVal]
  rw [skipWs_cons_not (Char.ofNat 123) _ (by decide)]
  simp +decide

theorem parseVal_str_branch (fuel : ℕ) (cs1 : List Char) :
    parseVal (fuel + 1) ('"' :: cs1) =
      (parseStrChars cs1).map fun p => (Json.str ⟨p.1⟩, p.2) := by
  simp only [parseVal]
  rw [skipWs_cons_not '"' _ (by decide)]
  simp +decide

theorem serElems_cons_head (e : Json) (es : List Json) :
    ∃ c t, serElems (e :: es) = c :: t ∧ isWs c = false ∧ ¬ c = ']' := by
  rcases serVal_head_facts e with ⟨c, cs0, hser, hws, hbr, _⟩
  match es with
  | [] => exact ⟨c, cs0, by rw [serElems, hser], hws, hbr⟩
  | e2 :: es =>
    exact ⟨c, cs0 ++ ',' :: serElems (e2 :: es),
      by rw [serElems, hser, List.cons_append], hws, hbr⟩

theorem serMembers_cons_head (m : String × Json) (ms : List (String × Json)) :
    ∃ t, serMembers (m :: ms) = '"' :: t := by
  rcases m with ⟨k, v⟩
  match ms with
  | [] =>
    exact ⟨escapeList k.data ++ ['"'] ++ ':' :: serVal v,
      by rw [serMembers, serStrLit, List.cons_append]⟩
  | m2 :: ms =>
    exact ⟨escapeList k.data ++ ['"'] ++ ':' :: serVal v ++ ',' :: serMembers (m2 :: ms),
      by rw [serMembers, serStrLit]; simp [List.append_assoc]⟩

theorem nodup_append_head_not_mem {l1 l2 : List String} {a : String}
    (h : (l1 ++ a :: l2).Nodup) : a ∉ l1 := by
  intro ha
  exact (List.disjoint_of_nodup_append h) ha (List.mem_cons_self a l2)

theorem noDigitHead_cons {c : Char} (cs : List Char) (h : c.isDigit = false) :
    noDigitHead (c :: cs) := by
  intro r hr
  simp only [List.head?_cons, Option.some.injEq] at hr
  rw [← hr]
  exact h

theorem string_eta (s : String) : (⟨s.data⟩ : String) = s := rfl

theorem parse_rt_all : ∀ fuel : ℕ,
    (∀ j rest, fsize j ≤ fuel → jwf j → noDigitHead rest →
      parseVal fuel (serVal j ++ rest) = some (j, rest)) ∧
    (∀ es rest, es ≠ [] → fsizeL es ≤ fuel → jwfL es →
      parseElems fuel (serElems es ++ ']' :: rest) = some (es, rest)) ∧
    (∀ ms acc rest, ms ≠ [] → fsizeM ms ≤ fuel → jwfM ms →
      ((acc ++ ms).map Prod.fst).Nodup →
      parseMembers fuel acc (serMembers ms ++ Char.ofNat 125 :: rest) =
        some (acc ++ ms, rest)) := by
  intro fuel
  induction fuel with
  | zero =>
    refine ⟨?_, ?_, ?_⟩
    · intro j rest hsz _ _
      exact absurd hsz (by have := fsize_pos j; omega)
    · intro es rest hne hsz _
      exact absurd hsz (by have := fsizeL_pos es hne; omega)
    · intro ms acc rest hne hsz _ _
      exact absurd hsz (by have := fsizeM_pos ms hne; omega)
  | succ fuel ih =>
    obtain ⟨ih1, ih2, ih3⟩ := ih
    refine ⟨?_, ?_, ?_⟩
    · intro j rest hsz hwf hrest
      match j with
      | .null =>
        rw [serVal]
        simp only [parseVal]
        simp +decide [skipWs, isWs]
      | .bool true =>
        rw [serVal]
        simp only [parseVal]
        simp +decide [skipWs, isWs]
      | .bool false =>
        rw [serVal]
        simp only [parseVal]
        simp +decide [skipWs, isWs]
      | .str s =>
        rw [serVal, serStrLit, List.cons_append, parseVal_str_branch]
        rw [List.append_assoc, show (['"'] ++ rest) = ('"' :: rest) from rfl,
          parseStrChars_escape s.data rest]
        rfl
      | .num n =>
        rcases serInt_head n with ⟨c, cs, hcs, hc⟩
        have hfacts : isWs c = false ∧ ¬ c = 'n' ∧ ¬ c = 't' ∧ ¬ c = 'f' ∧
            ¬ c = '"' ∧ ¬ c = '[' ∧ ¬ c = Char.ofNat 123 ∧
            (c = '-' ∨ c.isDigit = true) := by
          rcases hc with rfl | ⟨r, hr, rfl⟩
          · refine ⟨?_, ?_, ?_, ?_, ?_, ?_, ?_, Or.inl rfl⟩ <;> decide
          · have h := decDigit_head_facts hr
            exact ⟨h.1, h.2.1, h.2.2.1, h.2.2.2.1, h.2.2.2.2.1, h.2.2.2.2.2.1,
              h.2.2.2.2.2.2.1, h.2.2.2.2.2.2.2.2.2.2⟩
        rw [serVal, hcs, List.cons_append,
          parseVal_num_branch fuel c _ hfacts.1 hfacts.2.1 hfacts.2.2.1
            hfacts.2.2.2.1 hfacts.2.2.2.2.1 hfacts.2.2.2.2.2.1
            hfacts.2.2.2.2.2.2.1 hfacts.2.2.2.2.2.2.2,
          ← List.cons_append, ← hcs, parseNumber_serInt n rest hrest]
      | .arr es =>
        rw [serVal, List.cons_append, parseVal_arr_branch]
        rw [List.append_assoc, show (([']'] : List Char) ++ rest) = (']' :: rest)
          from rfl]
        match es with
        | [] =>
          rw [serElems, List.nil_append, skipWs_cons_not ']' _ (by decide)]
          simp
        | e :: es2 =>
          rcases serElems_cons_head e es2 with ⟨c, t, hser, hws, hbr⟩
          rw [hser, List.cons_append, skipWs_cons_not c _ hws]
          simp only [if_neg hbr]
          rw [← List.cons_append, ← hser]
          rw [ih2 (e :: es2) rest (by simp)
            (by rw [fsize] at hsz; omega)
            (by rw [jwf] at hwf; exact hwf)]
          rfl
      | .obj ms =>
        rw [serVal, List.cons_append, parseVal_obj_branch]
        rw [List.append_assoc, show (([Char.ofNat 125] : List Char) ++ rest) =
          (Char.ofNat 125 :: rest) from rfl]
        match ms with
        | [] =>
          rw [serMembers, List.nil_append,
            skipWs_cons_not (Char.ofNat 125) _ (by decide)]
          simp
        | m :: ms2 =>
          rcases serMembers_cons_head m ms2 with ⟨t, hser⟩
          rw [hser, List.cons_append, skipWs_cons_not '"' _ (by decide)]
          simp only [if_neg (show ¬ ('"' : Char) = Char.ofNat 125 from by decide)]
          rw [← List.cons_append, ← hser]
          rw [ih3 (m :: ms2) [] rest (by simp)
            (by rw [fsize] at hsz; omega)
            (by rw [jwf] at hwf; exact hwf.2)
            (by rw [List.nil_append]; rw [jwf] at hwf; exact hwf.1)]
          rfl
    · intro es rest hne hsz hwfl
      match es with
      | [] => exact absurd rfl hne
      | [e] =>
        have hsz' : fsize e ≤ fuel := by
          rw [fsizeL, fsizeL] at hsz; omega
        have hwf' : jwf e := by rw [jwfL] at hwfl; exact hwfl.1
        rw [serElems]
        simp only [parseElems]
        rw [ih1 e (']' :: rest) hsz' hwf' (noDigitHead_cons rest (by decide))]
        simp only
        rw [skipWs_cons_not ']' _ (by decide)]
        simp +decide
      | e :: e2 :: es2 =>
        have hpos := fsizeL_pos (e2 :: es2) (by simp)
        have hsz1 : fsize e ≤ fuel := by rw [fsizeL] at hsz; omega
        have hsz2 : fsizeL (e2 :: es2) ≤ fuel := by rw [fsizeL] at hsz; omega
        have hwf1 : jwf e := by rw [jwfL] at hwfl; exact hwfl.1
        have hwf2 : jwfL (e2 :: es2) := by rw [jwfL] at hwfl; exact hwfl.2
        rw [serElems, List.append_assoc, List.cons_append]
        simp only [parseElems]
        rw [ih1 e (',' :: (serElems (e2 :: es2) ++ ']' :: rest)) hsz1 hwf1
          (noDigitHead_cons _ (by decide))]
        simp only
        rw [skipWs_cons_not ',' _ (by decide)]
        simp +decide only []
        rw [ih2 (e2 :: es2) rest (by simp) hsz2 hwf2]
        rfl
    · intro ms acc rest hne hsz hwfm hnodup
      match ms with
      | [] => exact absurd rfl hne
      | [(k, v)] =>
        have hsz' : fsize v ≤ fuel := by
          rw [fsizeM, fsizeM] at hsz; omega
        have hwf' : jwf v := by rw [jwfM] at hwfm; exact hwfm.1
        have hk : k ∉ acc.map Prod.fst := by
          have hx : (acc.map Prod.fst ++ k :: ([] : List String)).Nodup := by
            have h2 : (acc ++ [(k, v)]).map Prod.fst =
                acc.map Prod.fst ++ k :: ([] : List String) := by simp
            rw [h2] at hnodup
            exact hnodup
          exact nodup_append_head_not_mem hx
        rw [serMembers, serStrLit]
        simp only [List.cons_append, List.append_assoc, List.nil_append]
        simp only [parseMembers]
        rw [skipWs_cons_not '"' _ (by decide)]
        simp +decide only [if_pos]
        rw [show ((escapeList k.data ++ '"' :: (':' :: (serVal v ++
            Char.ofNat 125 :: rest)))) = (escapeList k.data ++ '"' ::
            (':' :: (serVal v ++ Char.ofNat 125 :: rest))) from rfl,
          parseStrChars_escape k.data]
        simp only
        rw [skipWs_cons_not ':' _ (by decide)]
        simp only []
        rw [ih1 v (Char.ofNat 125 :: rest) hsz' hwf'
          (noDigitHead_cons rest (by decide))]
        simp only
        rw [skipWs_cons_not (Char.ofNat 125) _ (by decide)]
        simp +decide only []
        rw [string_eta, insertKV_not_mem acc k v hk]
        simp +decide
      | (k, v) :: m2 :: ms2 =>
        have hpos := fsizeM_pos (m2 :: ms2) (by simp)
        have hsz1 : fsize v ≤ fuel := by rw [fsizeM] at hsz; omega
        have hsz2 : fsizeM (m2 :: ms2) ≤ fuel := by rw [fsizeM] at hsz; omega
        have hwf1 : jwf v := by rw [jwfM] at hwfm; exact hwfm.1
        have hwf2 : jwfM (m2 :: ms2) := by rw [jwfM] at hwfm; exact hwfm.2
        have hk : k ∉ acc.map Prod.fst := by
          have hx : (acc.map Prod.fst ++ k :: (m2 :: ms2).map Prod.fst).Nodup := by
            have h2 : (acc ++ (k, v) :: m2 :: ms2).map Prod.fst =
                acc.map Prod.fst ++ k :: (m2 :: ms2).map Prod.fst := by simp
            rw [h2] at hnodup
            exact hnodup
          exact nodup_append_head_not_mem hx
        rw [serMembers, serStrLit]
        simp only [List.cons_append, List.append_assoc, List.nil_append]
        simp only [parseMembers]
        rw [skipWs_cons_not '"' _ (by decide)]
        simp +decide only [if_pos]
        rw [parseStrChars_escape k.data]
        simp only
        rw [skipWs_cons_not ':' _ (by decide)]
        simp only []
        rw [ih1 v (',' :: (serMembers (m2 :: ms2) ++ Char.ofNat 125 :: rest))
          hsz1 hwf1 (noDigitHead_cons _ (by decide))]
        simp only
        rw [skipWs_cons_not ',' _ (by decide)]
        simp +decide only []
        rw [string_eta, insertKV_not_mem acc k v hk]
        rw [ih3 (m2 :: ms2) (acc ++ [(k, v)]) rest (by simp) hsz2 hwf2
          (by rw [List.append_assoc]; exact hnodup)]
        rw [List.append_assoc]
        rfl

theorem noDigitHead_nil : noDigitHead [] := by
  intro r hr
  simp at hr

theorem parseJson_serJson (j : Json) (hwf : jwf j) : parseJson (serJson j) = some j := by
  have hfuel : fsize j ≤ (serVal j).length + 1 := by
    have := fsize_le_len j
    omega
  have h := (parse_rt_all ((serVal j).length + 1)).1 j [] hfuel hwf noDigitHead_nil
  rw [List.append_nil] at h
  rw [parseJson]
  rw [show (serJson j).length = (serVal j).length from rfl,
    show (serJson j).data = serVal j from rfl, h]
  simp [skipWs]

theorem mem_keys_insertKV {ms : List (String × Json)} {k : String} {v : Json}
    {x : String} :
    x ∈ (insertKV ms k v).map Prod.fst → x ∈ ms.map Prod.fst ∨ x = k := by
  induction ms with
  | nil =>
    intro h
    simp [insertKV] at h
    exact Or.inr h
  | cons p ms ih =>
    rcases p with ⟨k0, v0⟩
    intro h
    rw [insertKV] at h
    by_cases hk : k0 = k
    · rw [if_pos hk] at h
      simp only [List.map_cons, List.mem_cons] at h
      rcases h with h | h
      · exact Or.inl (by rw [List.map_cons, h]; exact List.mem_cons_self _ _)
      · exact Or.inl (by rw [List.map_cons]; exact List.mem_cons_of_mem _ h)
    · rw [if_neg hk] at h
      simp only [List.map_cons, List.mem_cons] at h
      rcases h with h | h
      · exact Or.inl (by rw [List.map_cons, h]; exact List.mem_cons_self _ _)
      · rcases ih h with h | h
        · exact Or.inl (by rw [List.map_cons]; exact List.mem_cons_of_mem _ h)
        · exact Or.inr h

theorem insertKV_keys_nodup (ms : List (String × Json)) (k : String) (v : Json)
    (h : (ms.map Prod.fst).Nodup) : ((insertKV ms k v).map Prod.fst).Nodup := by
  induction ms with
  | nil => simp [insertKV]
  | cons p ms ih =>
    rcases p with ⟨k0, v0⟩
    simp only [List.map_cons, List.nodup_cons] at h
    rw [insertKV]
    by_cases hk : k0 = k
    · rw [if_pos hk]
      simp only [List.map_cons, List.nodup_cons]
      exact h
    · rw [if_neg hk]
      simp only [List.map_cons, List.nodup_cons]
      refine ⟨?_, ih h.2⟩
      intro hmem
      rcases mem_keys_insertKV hmem with hm | hm
      · exact h.1 hm
      · exact hk hm

theorem insertKV_jwfM (ms : List (String × Json)) (k : String) (v : Json)
    (h1 : jwfM ms) (h2 : jwf v) : jwfM (insertKV ms k v) := by
  induction ms with
  | nil => rw [insertKV, jwfM, jwfM]; exact ⟨h2, trivial⟩
  | cons p ms ih =>
    rcases p with ⟨k0, v0⟩
    rw [jwfM] at h1
    rw [insertKV]
    by_cases hk : k0 = k
    · rw [if_pos hk, jwfM]
      exact ⟨h2, h1.2⟩
    · rw [if_neg hk, jwfM]
      exact ⟨h1.1, ih h1.2⟩

theorem parseNumber_shape (cs : List Char) (j : Json) (rest : List Char)
    (h : parseNumber cs = some (j, rest)) : ∃ n, j = Json.num n := by
  match cs with
  | [] => exact absurd h (by simp [parseNumber])
  | c :: cs2 =>
    rw [parseNumber] at h
    split at h
    · rcases hp : parsePosNum cs2 with _ | ⟨n, r⟩ <;> rw [hp] at h <;> simp at h
      exact ⟨-(n : Int), h.1.symm⟩
    · rcases hp : parsePosNum (c :: cs2) with _ | ⟨n, r⟩ <;> rw [hp] at h <;>
        simp at h
      exact ⟨(n : Int), h.1.symm⟩

theorem parse_wf_all : ∀ fuel : ℕ,
    (∀ cs j rest, parseVal fuel cs = some (j, rest) → jwf j) ∧
    (∀ cs es rest, parseElems fuel cs = some (es, rest) → jwfL es) ∧
    (∀ cs acc ms rest, (acc.map Prod.fst).Nodup → jwfM acc →
      parseMembers fuel acc cs = some (ms, rest) →
      (ms.map Prod.fst).Nodup ∧ jwfM ms) := by
  intro fuel
  induction fuel with
  | zero =>
    refine ⟨?_, ?_, ?_⟩
    · intro cs j rest h
      exact absurd h (by simp [parseVal])
    · intro cs es rest h
      exact absurd h (by simp [parseElems])
    · intro cs acc ms rest _ _ h
      exact absurd h (by simp [parseMembers])
  | succ fuel ih =>
    obtain ⟨ih1, ih2, ih3⟩ := ih
    refine ⟨?_, ?_, ?_⟩
    · intro cs j rest h
      simp only [parseVal] at h
      split at h
      · exact absurd h (by simp)
      · split at h
        · -- c = 'n'
          split at h
          · simp only [Option.some.injEq, Prod.mk.injEq] at h
            rw [← h.1, jwf]
            trivial
          · exact absurd h (by simp)
        · split at h
          · split at h
            · simp only [Option.some.injEq, Prod.mk.injEq] at h
              rw [← h.1, jwf]
              trivial
            · exact absurd h (by simp)
          · split at h
            · split at h
              · simp only [Option.some.injEq, Prod.mk.injEq] at h
                rw [← h.1, jwf]
                trivial
              · exact absurd h (by simp)
            · split at h
              · rcases hp : parseStrChars _ with _ | ⟨l, r⟩ <;> rw [hp] at h <;>
                  simp at h
                rw [← h.1, jwf]
                trivial
              · split at h
                · split at h
                  · exact absurd h (by simp)
                  · split at h
                    · simp only [Option.some.injEq, Prod.mk.injEq] at h
                      rw [← h.1, jwf, jwfL]
                      trivial
                    · rcases hp : parseElems fuel _ with _ | ⟨es1, r⟩ <;>
                        rw [hp] at h <;> simp at h
                      rw [← h.1, jwf]
                      exact ih2 _ _ _ hp
                · split at h
                  · split at h
                    · exact absurd h (by simp)
                    · split at h
                      · simp only [Option.some.injEq, Prod.mk.injEq] at h
                        rw [← h.1, jwf]
                        exact ⟨by simp, trivial⟩
                      · rcases hp : parseMembers fuel [] _ with _ | ⟨ms1, r⟩ <;>
                          rw [hp] at h <;> simp at h
                        have := ih3 _ [] _ _ (by simp) trivial hp
                        rw [← h.1, jwf]
                        exact this
                  · split at h
                    · rcases parseNumber_shape _ _ _ h with ⟨n, rfl⟩
                      rw [jwf]
                      trivial
                    · exact absurd h (by simp)
    · intro cs es rest h
      simp only [parseElems] at h
      rcases hp : parseVal fuel cs with _ | ⟨j1, rest1⟩ <;> rw [hp] at h
      · exact absurd h (by simp)
      · simp only at h
        split at h
        · rcases hq : parseElems fuel _ with _ | ⟨es1, r⟩ <;> rw [hq] at h <;>
            simp at h
          rw [← h.1, jwfL]
          exact ⟨ih1 _ _ _ hp, ih2 _ _ _ hq⟩
        · simp only [Option.some.injEq, Prod.mk.injEq] at h
          rw [← h.1, jwfL]
          exact ⟨ih1 _ _ _ hp, trivial⟩
        · exact absurd h (by simp)
    · intro cs acc ms rest hnd hwm h
      simp only [parseMembers] at h
      split at h
      · exact absurd h (by simp)
      · split at h
        · rcases hp : parseStrChars _ with _ | ⟨k1, rest1⟩ <;> rw [hp] at h
          · exact absurd h (by simp)
          · simp only at h
            split at h
            · rcases hq : parseVal fuel _ with _ | ⟨v1, rest2⟩ <;> rw [hq] at h
              · exact absurd h (by simp)
              · simp only at h
                have hjv := ih1 _ _ _ hq
                split at h
                · exact ih3 _ _ _ _ (insertKV_keys_nodup acc _ v1 hnd)
                    (insertKV_jwfM acc _ v1 hwm hjv) h
                · split at h
                  · simp only [Option.some.injEq, Prod.mk.injEq] at h
                    rw [← h.1]
                    exact ⟨insertKV_keys_nodup acc _ v1 hnd,
                      insertKV_jwfM acc _ v1 hwm hjv⟩
                  · exact absurd h (by simp)
                · exact absurd h (by simp)
            · exact absurd h (by simp)
        · exact absurd h (by simp)

theorem modifyKV_keys (ms : List (String × Json)) (key : String) (f : Json → Json) :
    (modifyKV ms key f).map Prod.fst = ms.map Prod.fst := by
  induction ms with
  | nil => rfl
  | cons p ms ih =>
    rcases p with ⟨k0, v0⟩
    rw [modifyKV]
    by_cases hk : k0 = key
    · rw [if_pos hk, List.map_cons, List.map_cons]
    · rw [if_neg hk, List.map_cons, List.map_cons, ih]

theorem modifyKV_lookup_ne (ms : List (String × Json)) (key : String)
    (f : Json → Json) (x : String) (h : x ≠ key) :
    lookupKV x (modifyKV ms key f) = lookupKV x ms := by
  induction ms with
  | nil => rfl
  | cons p ms ih =>
    rcases p with ⟨k0, v0⟩
    rw [modifyKV]
    by_cases hk : k0 = key
    · rw [if_pos hk, lookupKV, lookupKV, if_neg (by rw [hk]; exact fun hx => h hx.symm),
        if_neg (by rw [hk]; exact fun hx => h hx.symm)]
    · rw [if_neg hk, lookupKV, lookupKV]
      by_cases hx : k0 = x
      · rw [if_pos hx, if_pos hx]
      · rw [if_neg hx, if_neg hx, ih]

theorem fixValue_eq_str (t : String) (v : Json) : fixValue t v = .str t := by
  match v with
  | .str s =>
    rw [fixValue]
    by_cases hs : s = t
    · rw [if_pos hs, hs]
    · rw [if_neg hs]
  | .null | .bool _ | .num _ | .arr _ | .obj _ => rfl

theorem fixValue_jwf (t : String) (v : Json) : jwf (fixValue t v) := by
  rw [fixValue_eq_str, jwf]
  trivial

theorem modifyKV_jwfM (ms : List (String × Json)) (key : String) (f : Json → Json)
    (hf : ∀ v, jwf (f v)) (h : jwfM ms) : jwfM (modifyKV ms key f) := by
  induction ms with
  | nil => exact h
  | cons p ms ih =>
    rcases p with ⟨k0, v0⟩
    rw [jwfM] at h
    rw [modifyKV]
    by_cases hk : k0 = key
    · rw [if_pos hk, jwfM]
      exact ⟨hf v0, h.2⟩
    · rw [if_neg hk, jwfM]
      exact ⟨h.1, ih h.2⟩

theorem modifyKV_self (ms : List (String × Json)) (key : String) (f : Json → Json)
    (hf : ∀ v, f (f v) = f v) :
    modifyKV (modifyKV ms key f) key f = modifyKV ms key f := by
  induction ms with
  | nil => rfl
  | cons p ms ih =>
    rcases p with ⟨k0, v0⟩
    rw [modifyKV]
    by_cases hk : k0 = key
    · rw [if_pos hk, modifyKV, if_pos hk, hf v0]
    · rw [if_neg hk, modifyKV, if_neg hk, ih]

theorem modifyKV_comm (ms : List (String × Json)) (k1 k2 : String)
    (f1 f2 : Json → Json) (h : k1 ≠ k2) :
    modifyKV (modifyKV ms k1 f1) k2 f2 = modifyKV (modifyKV ms k2 f2) k1 f1 := by
  induction ms with
  | nil => rfl
  | cons p ms ih =>
    rcases p with ⟨k0, v0⟩
    rw [modifyKV, modifyKV]
    by_cases h1 : k0 = k1
    · rw [if_pos h1, if_neg (by rw [h1]; exact h)]
      rw [modifyKV, modifyKV, if_neg (by rw [h1]; exact h), if_pos h1]
    · rw [if_neg h1]
      by_cases h2 : k0 = k2
      · rw [if_pos h2, modifyKV, modifyKV, if_pos h2, if_neg h1]
      · rw [if_neg h2, modifyKV, modifyKV, if_neg h1, if_neg h2, ih]

theorem parseJson_wf (s : String) (j : Json) (h : parseJson s = some j) : jwf j := by
  rw [parseJson] at h
  rcases hp : parseVal (s.length + 1) s.data with _ | ⟨j1, rest⟩ <;> rw [hp] at h
  · exact absurd h (by simp)
  · simp only at h
    split at h
    · simp only [Option.some.injEq] at h
      rw [← h]
      exact (parse_wf_all (s.length + 1)).1 _ _ _ hp
    · exact absurd h (by simp)

theorem parsePayloadMap_wf (s : String) (m : List (String × Json))
    (h : parsePayloadMap s = some m) : (m.map Prod.fst).Nodup ∧ jwfM m := by
  rw [parsePayloadMap] at h
  rcases hp : parseJson s with _ | j <;> rw [hp] at h
  · exact absurd h (by simp)
  · match j with
    | .obj m1 =>
      simp only [Option.some.injEq] at h
      have := parseJson_wf s (.obj m1) hp
      rw [jwf] at this
      rw [← h]
      exact this
    | .null | .bool _ | .num _ | .str _ | .arr _ => exact absurd h (by simp)

/-- C10: fixer atomicity on error.  Whenever `fix_fbpml_payload` returns an
error — in particular when the payload string does not parse as a JSON
object — the `WorkloadRequest` is left completely unchanged: `req.payload`
is assigned only after deserialization (and the infallible re-serialization)
has succeeded, so a failed fix never leaves a partially rewritten payload. -/
theorem C10_fixer_atomic_on_error (req : WorkloadRequest) (a b : String)
    (e : FixerError) (h : (fix_fbpml_payload req a b).2 = some e) :
    (fix_fbpml_payload req a b).1 = req := by
  rcases hp : parsePayloadMap req.payload with _ | m
  · rw [fix_fbpml_payload, hp]
  · rw [fix_fbpml_payload, hp] at h
    simp at h

theorem C10_fixer_atomic_on_error_witness :
    (fix_fbpml_payload ⟨.nan, .nan, "f", "[\"not an object\"]"⟩
      "new" "buck").2 = some .jsonDeserialization ∧
    (fix_fbpml_payload ⟨.nan, .nan, "f", "[\"not an object\"]"⟩
      "new" "buck").1 = ⟨.nan, .nan, "f", "[\"not an object\"]"⟩ :=
  ⟨by rfl,
    C10_fixer_atomic_on_error ⟨.nan, .nan, "f", "[\"not an object\"]"⟩
      "new" "buck" .jsonDeserialization (by rfl)⟩

/-- C4: the payload fixer is idempotent.  For every `WorkloadRequest` whose
payload is a JSON object (i.e. on which the fixer succeeds), applying
`fix_fbpml_payload` twice with the same `(minio_address, bucket_name)`
yields a byte-identical payload: the second application returns the request
unchanged, so `fix(fix(p)) == fix(p)` under the stable serializer. -/
theorem C4_fixer_idempotent (req req2 : WorkloadRequest) (a b : String)
    (h : fix_fbpml_payload req a b = (req2, none)) :
    fix_fbpml_payload req2 a b = (req2, none) := by
  rcases hp : parsePayloadMap req.payload with _ | m
  · rw [fix_fbpml_payload, hp] at h
    simp at h
  · rw [fix_fbpml_payload, hp] at h
    simp only [Prod.mk.injEq, and_true] at h
    obtain ⟨hnodup, hwfm⟩ := parsePayloadMap_wf _ _ hp
    have hkeys2 : (modifyKV (modifyKV m MINIO_ADDRESS_KEY (fixValue a))
        BUCKET_NAME_KEY (fixValue b)).map Prod.fst = m.map Prod.fst := by
      rw [modifyKV_keys, modifyKV_keys]
    have hwf2 : jwf (.obj (modifyKV (modifyKV m MINIO_ADDRESS_KEY (fixValue a))
        BUCKET_NAME_KEY (fixValue b))) := by
      rw [jwf]
      refine ⟨by rw [hkeys2]; exact hnodup, ?_⟩
      exact modifyKV_jwfM _ _ _ (fixValue_jwf b)
        (modifyKV_jwfM _ _ _ (fixValue_jwf a) hwfm)
    have hpay : req2.payload = serJson (.obj (modifyKV
        (modifyKV m MINIO_ADDRESS_KEY (fixValue a)) BUCKET_NAME_KEY
        (fixValue b))) := by
      rw [← h]
    have hparse2 : parsePayloadMap req2.payload =
        some (modifyKV (modifyKV m MINIO_ADDRESS_KEY (fixValue a))
          BUCKET_NAME_KEY (fixValue b)) := by
      rw [hpay, parsePayloadMap, parseJson_serJson _ hwf2]
    have hfself : ∀ (t : String) (v : Json),
        fixValue t (fixValue t v) = fixValue t v := by
      intro t v
      rw [fixValue_eq_str t v, fixValue_eq_str t (Json.str t)]
    have hstep1 : modifyKV (modifyKV (modifyKV m MINIO_ADDRESS_KEY (fixValue a))
        BUCKET_NAME_KEY (fixValue b)) MINIO_ADDRESS_KEY (fixValue a) =
        modifyKV (modifyKV m MINIO_ADDRESS_KEY (fixValue a)) BUCKET_NAME_KEY
          (fixValue b) := by
      rw [modifyKV_comm _ BUCKET_NAME_KEY MINIO_ADDRESS_KEY _ _ (by decide),
        modifyKV_self _ _ _ (hfself a)]
    have hstep2 : modifyKV (modifyKV (modifyKV m MINIO_ADDRESS_KEY (fixValue a))
        BUCKET_NAME_KEY (fixValue b)) BUCKET_NAME_KEY (fixValue b) =
        modifyKV (modifyKV m MINIO_ADDRESS_KEY (fixValue a)) BUCKET_NAME_KEY
          (fixValue b) :=
      modifyKV_self _ _ _ (hfself b)
    rw [fix_fbpml_payload, hparse2]
    simp only
    rw [hstep1, hstep2, ← hpay]

theorem C4_fixer_idempotent_witness :
    fix_fbpml_payload
      ⟨.nan, .nan, "f",
        "\x7b\"minio_address\":\"new\",\"bucket_name\":\"b\",\"extra\":\"x\"\x7d"⟩
      "new" "b" =
    (⟨.nan, .nan, "f",
        "\x7b\"minio_address\":\"new\",\"bucket_name\":\"b\",\"extra\":\"x\"\x7d"⟩,
      none) :=
  C4_fixer_idempotent
    ⟨.nan, .nan, "f",
      "\x7b\"minio_address\":\"old\",\"bucket_name\":\"b\",\"extra\":\"x\"\x7d"⟩
    ⟨.nan, .nan, "f",
      "\x7b\"minio_address\":\"new\",\"bucket_name\":\"b\",\"extra\":\"x\"\x7d"⟩
    "new" "b" (by rfl)

/-- C5: the payload fixer touches only the two managed keys.  For every
JSON-object payload, the fix succeeds and: keys absent from the payload are
never inserted (if `"minio_address"` or `"bucket_name"` is missing it stays
missing); every other key keeps its value; and the full key sequence — hence
the relative order of the surviving keys under the stable order-preserving
serializer — is unchanged. -/
theorem C5_fixer_frame (req : WorkloadRequest) (a b : String)
    (m : List (String × Json)) (hp : parsePayloadMap req.payload = some m) :
    ∃ req2 m2,
      fix_fbpml_payload req a b = (req2, none) ∧
      parsePayloadMap req2.payload = some m2 ∧
      m2.map Prod.fst = m.map Prod.fst ∧
      (MINIO_ADDRESS_KEY ∉ m.map Prod.fst → MINIO_ADDRESS_KEY ∉ m2.map Prod.fst) ∧
      (BUCKET_NAME_KEY ∉ m.map Prod.fst → BUCKET_NAME_KEY ∉ m2.map Prod.fst) ∧
      (∀ k, k ≠ MINIO_ADDRESS_KEY → k ≠ BUCKET_NAME_KEY →
        lookupKV k m2 = lookupKV k m) := by
  obtain ⟨hnodup, hwfm⟩ := parsePayloadMap_wf _ _ hp
  refine ⟨{ req with payload := serJson (.obj (modifyKV (modifyKV m
      MINIO_ADDRESS_KEY (fixValue a)) BUCKET_NAME_KEY (fixValue b))) },
    modifyKV (modifyKV m MINIO_ADDRESS_KEY (fixValue a)) BUCKET_NAME_KEY
      (fixValue b), ?_, ?_, ?_, ?_, ?_, ?_⟩
  · rw [fix_fbpml_payload, hp]
  · have hkeys2 : (modifyKV (modifyKV m MINIO_ADDRESS_KEY (fixValue a))
        BUCKET_NAME_KEY (fixValue b)).map Prod.fst = m.map Prod.fst := by
      rw [modifyKV_keys, modifyKV_keys]
    have hwf2 : jwf (.obj (modifyKV (modifyKV m MINIO_ADDRESS_KEY (fixValue a))
        BUCKET_NAME_KEY (fixValue b))) := by
      rw [jwf]
      refine ⟨by rw [hkeys2]; exact hnodup, ?_⟩
      exact modifyKV_jwfM _ _ _ (fixValue_jwf b)
        (modifyKV_jwfM _ _ _ (fixValue_jwf a) hwfm)
    show parsePayloadMap (serJson (.obj _)) = _
    rw [parsePayloadMap, parseJson_serJson _ hwf2]
  · rw [modifyKV_keys, modifyKV_keys]
  · intro h
    rw [modifyKV_keys, modifyKV_keys]
    exact h
  · intro h
    rw [modifyKV_keys, modifyKV_keys]
    exact h
  · intro k h1 h2
    rw [modifyKV_lookup_ne _ _ _ _ h2, modifyKV_lookup_ne _ _ _ _ h1]

theorem C5_fixer_frame_witness :
    ∃ req2 m2,
      fix_fbpml_payload ⟨.nan, .nan, "f", "\x7b\"x\":\"1\"\x7d"⟩ "new" "buck" =
        (req2, none) ∧
      parsePayloadMap req2.payload = some m2 ∧
      m2.map Prod.fst = [("x", Json.str "1")].map Prod.fst ∧
      (MINIO_ADDRESS_KEY ∉ ([("x", Json.str "1")].map Prod.fst) →
        MINIO_ADDRESS_KEY ∉ m2.map Prod.fst) ∧
      (BUCKET_NAME_KEY ∉ ([("x", Json.str "1")].map Prod.fst) →
        BUCKET_NAME_KEY ∉ m2.map Prod.fst) ∧
      (∀ k, k ≠ MINIO_ADDRESS_KEY → k ≠ BUCKET_NAME_KEY →
        lookupKV k m2 = lookupKV k [("x", Json.str "1")]) :=
  C5_fixer_frame ⟨.nan, .nan, "f", "\x7b\"x\":\"1\"\x7d"⟩ "new" "buck"
    [("x", Json.str "1")] (by rfl)

/-- C8: `WorkloadRequest` serialization round-trip.  For every
`WorkloadRequest` `r`, `deserialise(serialise(r))` succeeds and the result
equals `r` under the `PartialEq` that compares only `(bench, payload)`; on
serialization non-finite `mean`/`stdev` are omitted from the JSON, on
deserialization absent `mean`/`stdev` default to NaN — so NaN (and every
non-finite value) survives the round-trip as absence, and finite values
survive unchanged. -/
theorem C8_wreq_roundtrip (r : WorkloadRequest) :
    ∃ r2 : WorkloadRequest,
      deserializeWreq (serializeWreq r) = some r2 ∧
      WorkloadRequest.eq r2 r = true ∧
      r2.bench = r.bench ∧ r2.payload = r.payload ∧
      r2.mean = (if not_finite r.mean then .nan else r.mean) ∧
      r2.stdev = (if not_finite r.stdev then .nan else r.stdev) := by
  have hwf : jwf (.obj (floatField "mean" r.mean ++ floatField "stdev" r.stdev ++
      [("bench", .str r.bench), ("payload", .str r.payload)])) := by
    rw [jwf]
    constructor
    · rcases r with ⟨mean, stdev, bench, payload⟩
      cases mean <;> cases stdev <;> simp [floatField]
    · rcases r with ⟨mean, stdev, bench, payload⟩
      cases mean <;> cases stdev <;>
        simp [floatField, jwfM, jwf]
  have hparse : parsePayloadMap (serializeWreq r) =
      some (floatField "mean" r.mean ++ floatField "stdev" r.stdev ++
        [("bench", .str r.bench), ("payload", .str r.payload)]) := by
    rw [serializeWreq, parsePayloadMap, parseJson_serJson _ hwf]
  rw [deserializeWreq, hparse]
  rcases r with ⟨mean, stdev, bench, payload⟩
  cases mean <;> cases stdev <;>
    simp +decide [floatField, lookupKV, floatFromField, WorkloadRequest.eq,
      not_finite]

end Faasrail